import Mathlib

/-!
Shallow embedding of `contracts/vesting_contracts/src/lib.rs`, a Soroban
token-vesting contract.

Modelling conventions:
* `Address` values become natural numbers; `i128` amounts become unbounded
  `Int` (no claim under consideration depends on 128-bit wraparound);
  `u64` ids and timestamps become `Nat`.
* Soroban instance storage becomes explicit record fields.  The composite
  keys `(VAULT_DATA, vault_id)` and `(USER_VAULTS, owner)` become
  association lists; the bare `VAULT_DATA` key, which `get_contract_state`
  reads and which no operation ever writes, becomes the separate field
  `vault_data_slot`.
* `env.current_contract_address()` is the per-call identity supplied by the
  host (the test suite overrides it before each call); it is passed to each
  operation as an explicit `caller` argument.
* A `panic` aborts the invocation and the host discards every storage write
  of the call (the rollback the tests `test_claim_all_atomic_rollback_*`
  rely on), so fallible entry points return `Except Err (result × state)`
  and the error branch carries no state: the persisted state after a failed
  call is the state before it (see `callState`).
-/

/-- Error taxonomy: one constructor per distinct panic site of the source.
`IndexOutOfBounds` stands for the panic of `Vec::get(i).unwrap()` on a
missing index. -/
inductive Err where
  | AdminNotSet
  | Unauthorized
  | NoProposal
  | InsufficientBalance
  | VaultNotFound
  | VaultNotInitialized
  | InvalidAmount
  | InsufficientVaultBalance
  | LengthMismatch
  | EmptyBatch
  | IndexOutOfBounds
deriving DecidableEq

/-- The `Vault` record of the source. -/
structure Vault where
  owner : Nat
  total_amount : Int
  released_amount : Int
  start_time : Nat
  end_time : Nat
  is_initialized : Bool
deriving DecidableEq

/-- The `BatchCreateData` record of the source. -/
structure BatchCreateData where
  recipients : List Nat
  amounts : List Int
  start_times : List Nat
  end_times : List Nat
deriving DecidableEq

/-- The contract's instance storage.  `none` models an unset slot. -/
structure ContractState where
  initial_supply : Option Int
  admin_balance : Option Int
  admin_address : Option Nat
  proposed_admin : Option Nat
  vault_count : Option Nat
  vaults : List (Nat × Vault)
  user_vaults : List (Nat × List Nat)
  vault_data_slot : Option Vault
deriving DecidableEq

/-- Fresh storage before any call. -/
def emptyState : ContractState :=
  { initial_supply := none, admin_balance := none, admin_address := none,
    proposed_admin := none, vault_count := none, vaults := [],
    user_vaults := [], vault_data_slot := none }

/-- Lookup in an association list (first matching key). -/
def lookupE {α : Type} (k : Nat) : List (Nat × α) → Option α
  | [] => none
  | (j, v) :: t => if k = j then some v else lookupE k t

/-- Store under a key in an association list: replace the first matching
entry, or append a fresh one. -/
def setEntry {α : Type} (k : Nat) (v : α) : List (Nat × α) → List (Nat × α)
  | [] => [(k, v)]
  | (j, w) :: t => if k = j then (k, v) :: t else (j, w) :: setEntry k v t

/-- The owner index stored under `(USER_VAULTS, owner)`, defaulting to an
empty vector as the source does. -/
def uvGet (s : ContractState) (owner : Nat) : List Nat :=
  (lookupE owner s.user_vaults).getD []

/-- The persisted state after an invocation: the new state on success, the
unchanged pre-call state on a panic (host call-boundary rollback). -/
def callState {α : Type} (r : Except Err (α × ContractState)) (s : ContractState) :
    ContractState :=
  match r with
  | .ok (_, s1) => s1
  | .error _ => s

/-- Boolean success test for a call result. -/
def isOkB {α : Type} : Except Err α → Bool
  | .ok _ => true
  | .error _ => false

instance {ε α : Type} [DecidableEq ε] [DecidableEq α] : DecidableEq (Except ε α) :=
  fun x y =>
    match x, y with
    | .ok a, .ok b =>
      if h : a = b then .isTrue (by rw [h]) else .isFalse (fun hh => by cases hh; exact h rfl)
    | .ok _, .error _ => .isFalse (fun hh => by cases hh)
    | .error _, .ok _ => .isFalse (fun hh => by cases hh)
    | .error e, .error f =>
      if h : e = f then .isTrue (by rw [h]) else .isFalse (fun hh => by cases hh; exact h rfl)

/-- `initialize` of the source (named `initializeOp` here): sets supply,
admin balance, admin address and the zero vault counter. -/
def initializeOp (s : ContractState) (admin : Nat) (supply : Int) : ContractState :=
  { s with initial_supply := some supply, admin_balance := some supply,
           admin_address := some admin, vault_count := some 0 }

/-- `require_admin`: panics `AdminNotSet` when no admin is stored, and
`Unauthorized` when the caller differs from the stored admin. -/
def require_admin (s : ContractState) (caller : Nat) : Except Err Unit :=
  match s.admin_address with
  | none => .error .AdminNotSet
  | some admin => if caller ≠ admin then .error .Unauthorized else .ok ()

/-- `propose_new_admin`: admin-gated; overwrites the proposal slot. -/
def propose_new_admin (s : ContractState) (caller new_admin : Nat) :
    Except Err ContractState :=
  match require_admin s caller with
  | .error e => .error e
  | .ok _ => .ok { s with proposed_admin := some new_admin }

/-- `accept_ownership`: requires a live proposal made to the caller, then
installs the proposed admin and clears the proposal slot. -/
def accept_ownership (s : ContractState) (caller : Nat) : Except Err ContractState :=
  match s.proposed_admin with
  | none => .error .NoProposal
  | some proposed =>
    if caller ≠ proposed then .error .Unauthorized
    else .ok { s with admin_address := some proposed, proposed_admin := none }

/-- `create_vault_full`: admin-gated; debits the admin balance, stores an
initialized vault under the next id, indexes it under the owner and bumps the
vault counter. -/
def create_vault_full (s : ContractState) (caller owner : Nat) (amount : Int)
    (start_time end_time : Nat) : Except Err (Nat × ContractState) :=
  match require_admin s caller with
  | .error e => .error e
  | .ok _ =>
    let vault_count := s.vault_count.getD 0 + 1
    let admin_balance := s.admin_balance.getD 0
    if admin_balance < amount then .error .InsufficientBalance
    else
      let vault : Vault :=
        { owner := owner, total_amount := amount, released_amount := 0,
          start_time := start_time, end_time := end_time, is_initialized := true }
      let s1 := { s with admin_balance := some (admin_balance - amount),
                         vaults := setEntry vault_count vault s.vaults }
      .ok (vault_count,
        { s1 with user_vaults :=
                    setEntry owner (uvGet s1 owner ++ [vault_count]) s1.user_vaults,
                  vault_count := some vault_count })

/-- `create_vault_lazy`: like `create_vault_full` but the vault is stored
with `is_initialized = false` and is not indexed under its owner. -/
def create_vault_lazy (s : ContractState) (caller owner : Nat) (amount : Int)
    (start_time end_time : Nat) : Except Err (Nat × ContractState) :=
  match require_admin s caller with
  | .error e => .error e
  | .ok _ =>
    let vault_count := s.vault_count.getD 0 + 1
    let admin_balance := s.admin_balance.getD 0
    if admin_balance < amount then .error .InsufficientBalance
    else
      let vault : Vault :=
        { owner := owner, total_amount := amount, released_amount := 0,
          start_time := start_time, end_time := end_time, is_initialized := false }
      .ok (vault_count,
        { s with admin_balance := some (admin_balance - amount),
                 vaults := setEntry vault_count vault s.vaults,
                 vault_count := some vault_count })

/-- `initialize_vault_metadata`: reads the vault, synthesizing a placeholder
owned by the current contract address when the id is unknown; when the vault
is uninitialized it flips the flag, appends the id to the owner's index and
returns `true`; otherwise it is a no-op returning `false`. -/
def initialize_vault_metadata (s : ContractState) (caller vault_id : Nat) :
    Bool × ContractState :=
  let vault := (lookupE vault_id s.vaults).getD
    { owner := caller, total_amount := 0, released_amount := 0,
      start_time := 0, end_time := 0, is_initialized := false }
  if vault.is_initialized = false then
    let updated := { vault with is_initialized := true }
    let s1 := { s with vaults := setEntry vault_id updated s.vaults }
    (true,
      { s1 with user_vaults :=
                  setEntry updated.owner (uvGet s1 updated.owner ++ [vault_id]) s1.user_vaults })
  else (false, s)

/-- The state written by a successful claim of `amt` against the vault `v`
stored at `vault_id`: the vault is persisted with `released_amount` grown by
`amt` and everything else untouched.  Shared by `claim_tokens` and each item
of the `claim_all` loop, which perform exactly this update. -/
def claimUpdState (s : ContractState) (vault_id : Nat) (v : Vault) (amt : Int) :
    ContractState :=
  { s with vaults :=
      setEntry vault_id ({ v with released_amount := v.released_amount + amt }) s.vaults }

/-- `claim_tokens`: validates the vault and the amount, then adds the amount
to `released_amount` and persists the vault. -/
def claim_tokens (s : ContractState) (vault_id : Nat) (claim_amount : Int) :
    Except Err (Int × ContractState) :=
  match lookupE vault_id s.vaults with
  | none => .error .VaultNotFound
  | some vault =>
    if vault.is_initialized = false then .error .VaultNotInitialized
    else if claim_amount ≤ 0 then .error .InvalidAmount
    else if vault.total_amount - vault.released_amount < claim_amount then
      .error .InsufficientVaultBalance
    else
      .ok (claim_amount, claimUpdState s vault_id vault claim_amount)

/-- The per-item loop of `claim_all`, iterating the id/amount pairs in input
order and mutating each vault as it goes; any panic aborts the call (and the
host then discards the partial writes, hence the state-free error branch). -/
def claimAllGo (s : ContractState) : List Nat → List Int →
    Except Err (List Int × ContractState)
  | [], _ => .ok ([], s)
  | _ :: _, [] => .error .IndexOutOfBounds
  | vault_id :: ids, claim_amount :: amts =>
    match lookupE vault_id s.vaults with
    | none => .error .VaultNotFound
    | some vault =>
      if vault.is_initialized = false then .error .VaultNotInitialized
      else if claim_amount ≤ 0 then .error .InvalidAmount
      else if vault.total_amount - vault.released_amount < claim_amount then
        .error .InsufficientVaultBalance
      else
        match claimAllGo (claimUpdState s vault_id vault claim_amount) ids amts with
        | .ok (results, s2) => .ok (claim_amount :: results, s2)
        | .error e => .error e

/-- `claim_all`: length and emptiness checks, then the per-item loop. -/
def claim_all (s : ContractState) (vault_ids : List Nat) (claim_amounts : List Int) :
    Except Err (List Int × ContractState) :=
  if vault_ids.length ≠ claim_amounts.length then .error .LengthMismatch
  else if vault_ids.length = 0 then .error .EmptyBatch
  else claimAllGo s vault_ids claim_amounts

/-- The running total `for a in amounts { total += a }` of the batch
creators (integer addition, so the accumulation order is immaterial). -/
def sumAmounts : List Int → Int
  | [] => 0
  | a :: t => a + sumAmounts t

/-- One iteration of the batch-creation loop: the vault built from item
data `(r, a, st, en)` is stored under id `k + 1` with `released_amount = 0`
and `is_initialized = eager`, and under the eager (full) variant it is also
indexed under its owner, exactly as the source's loop body does. -/
def batchStepState (eager : Bool) (s : ContractState) (k r : Nat) (a : Int)
    (st en : Nat) : ContractState :=
  let vault : Vault :=
    { owner := r, total_amount := a, released_amount := 0,
      start_time := st, end_time := en, is_initialized := eager }
  let s1 := { s with vaults := setEntry (k + 1) vault s.vaults }
  if eager then
    { s1 with user_vaults := setEntry r (uvGet s1 r ++ [k + 1]) s1.user_vaults }
  else s1

/-- The vault-creation loop shared by `batch_create_vaults_lazy`
(`eager = false`) and `batch_create_vaults_full` (`eager = true`): item `i`
is stored under id `k + i + 1`; `Vec::get(i).unwrap()` on an exhausted
amounts/start/end vector panics, modelled by the `IndexOutOfBounds` arm. -/
def batchLoop (eager : Bool) (s : ContractState) (k : Nat) :
    List Nat → List Int → List Nat → List Nat → Except Err (List Nat × ContractState)
  | [], _, _, _ => .ok ([], s)
  | r :: rs, a :: amts, st :: sts, en :: ens =>
    match batchLoop eager (batchStepState eager s k r a st en) (k + 1) rs amts sts ens with
    | .ok (ids, s3) => .ok ((k + 1) :: ids, s3)
    | .error e => .error e
  | _ :: _, _, _, _ => .error .IndexOutOfBounds

/-- `batch_create_vaults_lazy`: admin-gated; sums every requested amount,
checks and debits the admin balance once, then creates one lazy vault per
recipient and finally sets the counter past the created ids.  Note the
source performs no length check on the four input vectors. -/
def batch_create_vaults_lazy (s : ContractState) (caller : Nat)
    (bd : BatchCreateData) : Except Err (List Nat × ContractState) :=
  match require_admin s caller with
  | .error e => .error e
  | .ok _ =>
    let initial_count := s.vault_count.getD 0
    let total_amount := sumAmounts bd.amounts
    let admin_balance := s.admin_balance.getD 0
    if admin_balance < total_amount then .error .InsufficientBalance
    else
      let s1 := { s with admin_balance := some (admin_balance - total_amount) }
      match batchLoop false s1 initial_count bd.recipients bd.amounts
              bd.start_times bd.end_times with
      | .ok (ids, s2) =>
        .ok (ids, { s2 with vault_count := some (initial_count + bd.recipients.length) })
      | .error e => .error e

/-- `batch_create_vaults_full`: as the lazy variant, but each vault is
created initialized and indexed under its owner. -/
def batch_create_vaults_full (s : ContractState) (caller : Nat)
    (bd : BatchCreateData) : Except Err (List Nat × ContractState) :=
  match require_admin s caller with
  | .error e => .error e
  | .ok _ =>
    let initial_count := s.vault_count.getD 0
    let total_amount := sumAmounts bd.amounts
    let admin_balance := s.admin_balance.getD 0
    if admin_balance < total_amount then .error .InsufficientBalance
    else
      let s1 := { s with admin_balance := some (admin_balance - total_amount) }
      match batchLoop true s1 initial_count bd.recipients bd.amounts
              bd.start_times bd.end_times with
      | .ok (ids, s2) =>
        .ok (ids, { s2 with vault_count := some (initial_count + bd.recipients.length) })
      | .error e => .error e

/-- `get_vault`: reads the vault (placeholder default when missing),
materializes it on first read, and re-reads it; the final `unwrap` can in
principle panic, modelled by the error branch. -/
def get_vault (s : ContractState) (caller vault_id : Nat) :
    Except Err (Vault × ContractState) :=
  let vault := (lookupE vault_id s.vaults).getD
    { owner := caller, total_amount := 0, released_amount := 0,
      start_time := 0, end_time := 0, is_initialized := false }
  if vault.is_initialized = false then
    let s1 := (initialize_vault_metadata s caller vault_id).2
    match lookupE vault_id s1.vaults with
    | some v => .ok (v, s1)
    | none => .error .VaultNotFound
  else .ok (vault, s)

/-- One iteration of the `get_user_vaults` loop: the vault is read with a
default owned by the queried user, and materialized when uninitialized. -/
def guvStep (caller user : Nat) (s : ContractState) (vault_id : Nat) : ContractState :=
  let vault := (lookupE vault_id s.vaults).getD
    { owner := user, total_amount := 0, released_amount := 0,
      start_time := 0, end_time := 0, is_initialized := false }
  if vault.is_initialized = false
    then (initialize_vault_metadata s caller vault_id).2
    else s

/-- The materialization loop of `get_user_vaults` over the ids of the
owner's index. -/
def guvLoop (caller user : Nat) : ContractState → List Nat → ContractState
  | s, [] => s
  | s, vault_id :: rest => guvLoop caller user (guvStep caller user s vault_id) rest

/-- `get_user_vaults`: returns the owner's index read up front, after
materializing every unmaterialized vault it mentions. -/
def get_user_vaults (s : ContractState) (caller user : Nat) :
    List Nat × ContractState :=
  let vault_ids := uvGet s user
  (vault_ids, guvLoop caller user s vault_ids)

/-- The aggregation loop of `get_contract_state`: one iteration per counted
vault, but each iteration reads the bare `VAULT_DATA` slot (not the entry of
the loop index). -/
def gcsLoop (slot : Option Vault) : Nat → Int × Int
  | 0 => (0, 0)
  | n + 1 =>
    let p := gcsLoop slot n
    match slot with
    | some vault =>
      (p.1 + (vault.total_amount - vault.released_amount), p.2 + vault.released_amount)
    | none => p

/-- `get_contract_state`: returns `(total_locked, total_claimed,
admin_balance)` as the source computes them. -/
def get_contract_state (s : ContractState) : Int × Int × Int :=
  let admin_balance := s.admin_balance.getD 0
  let vault_count := s.vault_count.getD 0
  let p := gcsLoop s.vault_data_slot vault_count
  (p.1, p.2, admin_balance)

/-- `check_invariant`: compares the three components of
`get_contract_state` against the stored initial supply. -/
def check_invariant (s : ContractState) : Bool :=
  let supply := s.initial_supply.getD 0
  let p := get_contract_state s
  if p.1 + p.2.1 + p.2.2 = supply then true else false

/-! ### Association-list lemmas -/

theorem lookupE_setEntry {α : Type} (k j : Nat) (v : α) (l : List (Nat × α)) :
    lookupE k (setEntry j v l) = if k = j then some v else lookupE k l := by
  induction l with
  | nil => by_cases h : k = j <;> simp [setEntry, lookupE, h]
  | cons hd t ih =>
    obtain ⟨j2, w⟩ := hd
    by_cases h1 : j = j2
    · subst h1
      by_cases h2 : k = j <;> simp [setEntry, lookupE, h2]
    · by_cases h2 : k = j2
      · subst h2
        have hkj : ¬ k = j := fun hh => h1 hh.symm
        simp [setEntry, if_neg h1, lookupE, hkj]
      · by_cases h3 : k = j
        · subst h3
          simp [setEntry, if_neg h1, lookupE, h2, ih]
        · simp [setEntry, if_neg h1, lookupE, h2, h3, ih]

theorem lookupE_setEntry_self {α : Type} (k : Nat) (v : α) (l : List (Nat × α)) :
    lookupE k (setEntry k v l) = some v := by
  simp [lookupE_setEntry]

theorem lookupE_setEntry_ne {α : Type} {k j : Nat} (v : α) (l : List (Nat × α))
    (h : k ≠ j) : lookupE k (setEntry j v l) = lookupE k l := by
  simp [lookupE_setEntry, h]

/-! ### Vault sums -/

/-- Sum of `total_amount` over the stored vaults. -/
def sumTotals : List (Nat × Vault) → Int
  | [] => 0
  | (_, v) :: t => v.total_amount + sumTotals t

/-- Sum of `released_amount` over the stored vaults. -/
def sumReleased : List (Nat × Vault) → Int
  | [] => 0
  | (_, v) :: t => v.released_amount + sumReleased t

/-- Sum of `total_amount - released_amount` over the stored vaults. -/
def sumLocked : List (Nat × Vault) → Int
  | [] => 0
  | (_, v) :: t => (v.total_amount - v.released_amount) + sumLocked t

theorem sumLocked_add_sumReleased (l : List (Nat × Vault)) :
    sumLocked l + sumReleased l = sumTotals l := by
  induction l with
  | nil => simp [sumLocked, sumReleased, sumTotals]
  | cons hd t ih =>
    obtain ⟨k, v⟩ := hd
    simp only [sumLocked, sumReleased, sumTotals]
    omega

theorem sumTotals_setEntry_none {k : Nat} {v : Vault} {l : List (Nat × Vault)}
    (h : lookupE k l = none) :
    sumTotals (setEntry k v l) = sumTotals l + v.total_amount := by
  induction l with
  | nil => simp only [setEntry, sumTotals]; omega
  | cons hd t ih =>
    obtain ⟨j, w⟩ := hd
    by_cases h1 : k = j
    · simp [lookupE, h1] at h
    · simp only [lookupE, if_neg h1] at h
      simp only [setEntry, if_neg h1]
      simp only [sumTotals, ih h]
      omega

theorem sumTotals_setEntry_some {k : Nat} {v w : Vault} {l : List (Nat × Vault)}
    (h : lookupE k l = some w) :
    sumTotals (setEntry k v l) = sumTotals l + v.total_amount - w.total_amount := by
  induction l with
  | nil => simp [lookupE] at h
  | cons hd t ih =>
    obtain ⟨j, u⟩ := hd
    by_cases h1 : k = j
    · subst h1
      simp only [lookupE, if_pos rfl] at h
      simp only [setEntry, if_pos rfl, sumTotals]
      cases h
      omega
    · simp only [lookupE, if_neg h1] at h
      simp only [setEntry, if_neg h1, sumTotals, ih h]
      omega

/-! ### Invariants -/

/-- Every stored vault beyond the current counter is a placeholder carrying
no value: zero `total_amount` and zero `released_amount`. -/
def phantomInv (s : ContractState) : Prop :=
  ∀ k v, lookupE k s.vaults = some v → s.vault_count.getD 0 < k →
    v.total_amount = 0 ∧ v.released_amount = 0

/-- Per-vault bounds: `released_amount` is nonnegative and never exceeds
`max total_amount 0`. -/
def boundsInv (s : ContractState) : Prop :=
  ∀ k v, lookupE k s.vaults = some v →
    0 ≤ v.released_amount ∧ v.released_amount ≤ max v.total_amount 0

/-- The state invariant carried through every reachable state. -/
def StateInv (s : ContractState) : Prop := phantomInv s ∧ boundsInv s

/-- Global conservation in terms of the vault totals. -/
def consEq (s : ContractState) : Prop :=
  sumTotals s.vaults + s.admin_balance.getD 0 = s.initial_supply.getD 0

/-- Between two states: every stored vault survives with a `released_amount`
at least as large. -/
def releasedMono (s s1 : ContractState) : Prop :=
  ∀ k v, lookupE k s.vaults = some v →
    ∃ w, lookupE k s1.vaults = some w ∧ v.released_amount ≤ w.released_amount

theorem releasedMono_refl (s : ContractState) : releasedMono s s :=
  fun _ v h => ⟨v, h, le_refl _⟩

theorem releasedMono_trans {s1 s2 s3 : ContractState}
    (h1 : releasedMono s1 s2) (h2 : releasedMono s2 s3) : releasedMono s1 s3 := by
  intro k v hv
  obtain ⟨w, hw, hle⟩ := h1 k v hv
  obtain ⟨u, hu, hle2⟩ := h2 k w hw
  exact ⟨u, hu, le_trans hle hle2⟩

/-- The validation predicate of a single `claim_all` item, evaluated against
a given state: the vault is missing, or uninitialized, or the amount is
non-positive, or it exceeds the vault's available balance. -/
def badClaim (s : ContractState) (vault_id : Nat) (amt : Int) : Prop :=
  match lookupE vault_id s.vaults with
  | none => True
  | some v =>
    v.is_initialized = false ∨ amt ≤ 0 ∨ v.total_amount - v.released_amount < amt

/-! ### The single-vault claim update -/

theorem claimUpd_phantom {s : ContractState} {vault_id : Nat} {v : Vault} {amt : Int}
    (hv : lookupE vault_id s.vaults = some v)
    (hpos : 0 < amt) (havail : amt ≤ v.total_amount - v.released_amount)
    (hp : phantomInv s) : phantomInv (claimUpdState s vault_id v amt) := by
  intro k w hw hk
  simp only [claimUpdState, lookupE_setEntry] at hw
  by_cases hkid : k = vault_id
  · subst hkid
    rw [if_pos rfl] at hw
    obtain ⟨ht, hr⟩ := hp k v hv hk
    omega
  · rw [if_neg hkid] at hw
    exact hp k w hw hk

theorem claimUpd_bounds {s : ContractState} {vault_id : Nat} {v : Vault} {amt : Int}
    (hv : lookupE vault_id s.vaults = some v)
    (hpos : 0 < amt) (havail : amt ≤ v.total_amount - v.released_amount)
    (hb : boundsInv s) : boundsInv (claimUpdState s vault_id v amt) := by
  intro k w hw
  simp only [claimUpdState, lookupE_setEntry] at hw
  by_cases hkid : k = vault_id
  · subst hkid
    rw [if_pos rfl] at hw
    obtain ⟨h0, h1⟩ := hb k v hv
    cases hw
    constructor
    · simp only []
      omega
    · have hmax : v.total_amount ≤ max v.total_amount 0 := le_max_left _ _
      simp only []
      omega
  · rw [if_neg hkid] at hw
    exact hb k w hw

theorem claimUpd_mono {s : ContractState} {vault_id : Nat} {v : Vault} {amt : Int}
    (hv : lookupE vault_id s.vaults = some v) (hpos : 0 < amt) :
    releasedMono s (claimUpdState s vault_id v amt) := by
  intro k w hw
  simp only [claimUpdState, lookupE_setEntry]
  by_cases hkid : k = vault_id
  · subst hkid
    rw [hv] at hw
    cases hw
    exact ⟨_, by rw [if_pos rfl], by simp only []; omega⟩
  · exact ⟨w, by rw [if_neg hkid]; exact hw, le_refl _⟩

theorem claimUpd_sum {s : ContractState} {vault_id : Nat} {v : Vault} {amt : Int}
    (hv : lookupE vault_id s.vaults = some v) :
    sumTotals (claimUpdState s vault_id v amt).vaults = sumTotals s.vaults := by
  simp only [claimUpdState]
  rw [sumTotals_setEntry_some hv]
  simp only []
  omega

theorem badClaim_claimUpd {s : ContractState} {vault_id : Nat} {v : Vault} {amt : Int}
    {j : Nat} {a : Int} (hv : lookupE vault_id s.vaults = some v) (hpos : 0 < amt)
    (hbad : badClaim s j a) : badClaim (claimUpdState s vault_id v amt) j a := by
  unfold badClaim at hbad ⊢
  simp only [claimUpdState, lookupE_setEntry]
  by_cases hkid : j = vault_id
  · subst hkid
    rw [if_pos rfl]
    rw [hv] at hbad
    simp only [] at hbad ⊢
    rcases hbad with h | h | h
    · exact Or.inl h
    · exact Or.inr (Or.inl h)
    · exact Or.inr (Or.inr (by omega))
  · rw [if_neg hkid]
    exact hbad

/-! ### Inversion lemmas for the claim operations -/

theorem claim_tokens_ok {s : ContractState} {vault_id : Nat} {amt r : Int}
    {s1 : ContractState} (h : claim_tokens s vault_id amt = .ok (r, s1)) :
    r = amt ∧ ∃ v, lookupE vault_id s.vaults = some v ∧ v.is_initialized = true ∧
      0 < amt ∧ amt ≤ v.total_amount - v.released_amount ∧
      s1 = claimUpdState s vault_id v amt := by
  unfold claim_tokens at h
  split at h
  · cases h
  · rename_i v hv
    split at h
    · cases h
    · rename_i hinit
      split at h
      · cases h
      · rename_i hle
        split at h
        · cases h
        · rename_i hav
          cases h
          refine ⟨rfl, v, hv, ?_, by omega, by omega, rfl⟩
          revert hinit
          cases v.is_initialized <;> simp

theorem claimAllGo_nil_ok {s : ContractState} {amts : List Int} {res : List Int}
    {s1 : ContractState} (h : claimAllGo s [] amts = .ok (res, s1)) :
    res = [] ∧ s1 = s := by
  simp [claimAllGo] at h
  exact ⟨h.1, h.2.symm⟩

theorem claimAllGo_cons_ok {s : ContractState} {vault_id : Nat} {ids : List Nat}
    {amt : Int} {amts : List Int} {res : List Int} {s1 : ContractState}
    (h : claimAllGo s (vault_id :: ids) (amt :: amts) = .ok (res, s1)) :
    ∃ v results, lookupE vault_id s.vaults = some v ∧ v.is_initialized = true ∧
      0 < amt ∧ amt ≤ v.total_amount - v.released_amount ∧
      claimAllGo (claimUpdState s vault_id v amt) ids amts = .ok (results, s1) ∧
      res = amt :: results := by
  unfold claimAllGo at h
  split at h
  · cases h
  · rename_i v hv
    split at h
    · cases h
    · rename_i hinit
      split at h
      · cases h
      · rename_i hle
        split at h
        · cases h
        · rename_i hav
          split at h
          · rename_i results s2 hgo
            cases h
            refine ⟨v, results, hv, ?_, by omega, by omega, hgo, rfl⟩
            revert hinit
            cases v.is_initialized <;> simp
          · cases h

theorem badClaim_head_false {s : ContractState} {vault_id : Nat} {amt : Int}
    {v : Vault} (hlook : lookupE vault_id s.vaults = some v)
    (hinit : ¬ v.is_initialized = false) (hle : ¬ amt ≤ 0)
    (hav : ¬ v.total_amount - v.released_amount < amt) :
    ¬ badClaim s vault_id amt := by
  intro hcon
  unfold badClaim at hcon
  rw [hlook] at hcon
  rcases hcon with hc | hc | hc
  · exact hinit hc
  · exact hle hc
  · exact hav hc

theorem claimAllGo_fields {ids : List Nat} {amts : List Int} {s : ContractState}
    {res : List Int} {s1 : ContractState}
    (h : claimAllGo s ids amts = .ok (res, s1)) :
    s1.vault_count = s.vault_count ∧ s1.admin_balance = s.admin_balance ∧
      s1.initial_supply = s.initial_supply := by
  induction ids generalizing amts s res with
  | nil =>
    obtain ⟨-, rfl⟩ := claimAllGo_nil_ok h
    exact ⟨rfl, rfl, rfl⟩
  | cons vault_id ids ih =>
    cases amts with
    | nil => simp [claimAllGo] at h
    | cons amt amts =>
      obtain ⟨v, results, hv, hinit, hpos, hav, hgo, rfl⟩ := claimAllGo_cons_ok h
      have := ih hgo
      simpa [claimUpdState] using this

theorem claimAllGo_res {ids : List Nat} {amts : List Int} {s : ContractState}
    {res : List Int} {s1 : ContractState} (hlen : ids.length = amts.length)
    (h : claimAllGo s ids amts = .ok (res, s1)) : res = amts := by
  induction ids generalizing amts s res with
  | nil =>
    cases amts with
    | nil => exact (claimAllGo_nil_ok h).1
    | cons a t => simp at hlen
  | cons vault_id ids ih =>
    cases amts with
    | nil => simp at hlen
    | cons amt amts =>
      obtain ⟨v, results, hv, hinit, hpos, hav, hgo, rfl⟩ := claimAllGo_cons_ok h
      have : results = amts := ih (by simpa using hlen) hgo
      rw [this]

theorem claimAllGo_sum {ids : List Nat} {amts : List Int} {s : ContractState}
    {res : List Int} {s1 : ContractState}
    (h : claimAllGo s ids amts = .ok (res, s1)) :
    sumTotals s1.vaults = sumTotals s.vaults := by
  induction ids generalizing amts s res with
  | nil =>
    obtain ⟨-, rfl⟩ := claimAllGo_nil_ok h
    rfl
  | cons vault_id ids ih =>
    cases amts with
    | nil => simp [claimAllGo] at h
    | cons amt amts =>
      obtain ⟨v, results, hv, hinit, hpos, hav, hgo, rfl⟩ := claimAllGo_cons_ok h
      rw [ih hgo, claimUpd_sum hv]

theorem claimAllGo_phantom {ids : List Nat} {amts : List Int} {s : ContractState}
    {res : List Int} {s1 : ContractState}
    (h : claimAllGo s ids amts = .ok (res, s1)) (hp : phantomInv s) :
    phantomInv s1 := by
  induction ids generalizing amts s res with
  | nil =>
    obtain ⟨-, rfl⟩ := claimAllGo_nil_ok h
    exact hp
  | cons vault_id ids ih =>
    cases amts with
    | nil => simp [claimAllGo] at h
    | cons amt amts =>
      obtain ⟨v, results, hv, hinit, hpos, hav, hgo, rfl⟩ := claimAllGo_cons_ok h
      exact ih hgo (claimUpd_phantom hv hpos hav hp)

theorem claimAllGo_bounds {ids : List Nat} {amts : List Int} {s : ContractState}
    {res : List Int} {s1 : ContractState}
    (h : claimAllGo s ids amts = .ok (res, s1)) (hb : boundsInv s) :
    boundsInv s1 := by
  induction ids generalizing amts s res with
  | nil =>
    obtain ⟨-, rfl⟩ := claimAllGo_nil_ok h
    exact hb
  | cons vault_id ids ih =>
    cases amts with
    | nil => simp [claimAllGo] at h
    | cons amt amts =>
      obtain ⟨v, results, hv, hinit, hpos, hav, hgo, rfl⟩ := claimAllGo_cons_ok h
      exact ih hgo (claimUpd_bounds hv hpos hav hb)

theorem claimAllGo_mono {ids : List Nat} {amts : List Int} {s : ContractState}
    {res : List Int} {s1 : ContractState}
    (h : claimAllGo s ids amts = .ok (res, s1)) : releasedMono s s1 := by
  induction ids generalizing amts s res with
  | nil =>
    obtain ⟨-, rfl⟩ := claimAllGo_nil_ok h
    exact releasedMono_refl _
  | cons vault_id ids ih =>
    cases amts with
    | nil => simp [claimAllGo] at h
    | cons amt amts =>
      obtain ⟨v, results, hv, hinit, hpos, hav, hgo, rfl⟩ := claimAllGo_cons_ok h
      exact releasedMono_trans (claimUpd_mono hv hpos) (ih hgo)

theorem claimAllGo_bad {ids : List Nat} {amts : List Int} {s : ContractState}
    (hbad : ∃ p ∈ ids.zip amts, badClaim s p.1 p.2) :
    ∃ e, claimAllGo s ids amts = .error e := by
  induction ids generalizing amts s with
  | nil => simp at hbad
  | cons vault_id ids ih =>
    cases amts with
    | nil => exact ⟨.IndexOutOfBounds, by simp [claimAllGo]⟩
    | cons amt amts =>
      simp only [List.zip_cons_cons, List.mem_cons] at hbad
      obtain ⟨p, hp, hpbad⟩ := hbad
      cases hlook : lookupE vault_id s.vaults with
      | none => exact ⟨.VaultNotFound, by simp [claimAllGo, hlook]⟩
      | some v =>
        by_cases hinit : v.is_initialized = false
        · exact ⟨.VaultNotInitialized, by simp [claimAllGo, hlook, hinit]⟩
        · by_cases hle : amt ≤ 0
          · exact ⟨.InvalidAmount, by simp [claimAllGo, hlook, hinit, hle]⟩
          · by_cases hav : v.total_amount - v.released_amount < amt
            · exact ⟨.InsufficientVaultBalance, by simp [claimAllGo, hlook, hinit, hle, hav]⟩
            · rcases hp with hp | hp
              · exfalso
                rw [hp] at hpbad
                exact badClaim_head_false hlook hinit hle hav hpbad
              · have hbad1 : badClaim (claimUpdState s vault_id v amt) p.1 p.2 :=
                  badClaim_claimUpd hlook (by omega) hpbad
                obtain ⟨e, he⟩ := ih ⟨p, hp, hbad1⟩
                refine ⟨e, ?_⟩
                simp [claimAllGo, hlook, hinit, hle, hav, he]

/-! ### Admin gating and vault creation -/

theorem require_admin_ok {s : ContractState} {c : Nat}
    (h : require_admin s c = .ok ()) : s.admin_address = some c := by
  unfold require_admin at h
  cases hadm : s.admin_address with
  | none => rw [hadm] at h; cases h
  | some a =>
    rw [hadm] at h
    by_cases hc : c = a
    · rw [hc]
    · have hca : c ≠ a := hc
      simp [hca] at h

theorem require_admin_none {s : ContractState} {c : Nat}
    (h : s.admin_address = none) : require_admin s c = .error .AdminNotSet := by
  unfold require_admin
  rw [h]

theorem require_admin_other {s : ContractState} {c a : Nat}
    (h : s.admin_address = some a) (hne : a ≠ c) :
    require_admin s c = .error .Unauthorized := by
  have hca : c ≠ a := fun hh => hne hh.symm
  simp [require_admin, h, hca]

theorem require_admin_self {s : ContractState} {c : Nat}
    (h : s.admin_address = some c) : require_admin s c = .ok () := by
  simp [require_admin, h]

theorem propose_ok {s : ContractState} {c na : Nat} {s1 : ContractState}
    (h : propose_new_admin s c na = .ok s1) :
    s.admin_address = some c ∧ s1 = { s with proposed_admin := some na } := by
  unfold propose_new_admin at h
  cases hra : require_admin s c with
  | error e => rw [hra] at h; cases h
  | ok u => rw [hra] at h; cases h; exact ⟨require_admin_ok hra, rfl⟩

theorem accept_ok {s : ContractState} {c : Nat} {s1 : ContractState}
    (h : accept_ownership s c = .ok s1) :
    s.proposed_admin = some c ∧
      s1 = { s with admin_address := some c, proposed_admin := none } := by
  unfold accept_ownership at h
  cases hprop : s.proposed_admin with
  | none => rw [hprop] at h; cases h
  | some p =>
    rw [hprop] at h
    simp only [] at h
    by_cases hc : c = p
    · subst hc
      rw [if_neg (fun hh => hh rfl)] at h
      cases h
      exact ⟨rfl, rfl⟩
    · rw [if_pos hc] at h
      cases h

theorem create_vault_full_ok {s : ContractState} {c o : Nat} {a : Int}
    {st en : Nat} {vid : Nat} {s1 : ContractState}
    (h : create_vault_full s c o a st en = .ok (vid, s1)) :
    s.admin_address = some c ∧ vid = s.vault_count.getD 0 + 1 ∧
      a ≤ s.admin_balance.getD 0 ∧
      s1.vaults = setEntry vid
        ({ owner := o, total_amount := a, released_amount := 0,
           start_time := st, end_time := en, is_initialized := true }) s.vaults ∧
      s1.vault_count = some vid ∧
      s1.admin_balance = some (s.admin_balance.getD 0 - a) ∧
      s1.initial_supply = s.initial_supply := by
  unfold create_vault_full at h
  cases hra : require_admin s c with
  | error e => rw [hra] at h; cases h
  | ok u =>
    rw [hra] at h
    simp only [] at h
    by_cases hbal : s.admin_balance.getD 0 < a
    · rw [if_pos hbal] at h; cases h
    · rw [if_neg hbal] at h
      cases h
      cases u
      exact ⟨require_admin_ok hra, rfl, by omega, rfl, rfl, rfl, rfl⟩

theorem create_vault_lazy_ok {s : ContractState} {c o : Nat} {a : Int}
    {st en : Nat} {vid : Nat} {s1 : ContractState}
    (h : create_vault_lazy s c o a st en = .ok (vid, s1)) :
    s.admin_address = some c ∧ vid = s.vault_count.getD 0 + 1 ∧
      a ≤ s.admin_balance.getD 0 ∧
      s1.vaults = setEntry vid
        ({ owner := o, total_amount := a, released_amount := 0,
           start_time := st, end_time := en, is_initialized := false }) s.vaults ∧
      s1.vault_count = some vid ∧
      s1.admin_balance = some (s.admin_balance.getD 0 - a) ∧
      s1.initial_supply = s.initial_supply := by
  unfold create_vault_lazy at h
  cases hra : require_admin s c with
  | error e => rw [hra] at h; cases h
  | ok u =>
    rw [hra] at h
    simp only [] at h
    by_cases hbal : s.admin_balance.getD 0 < a
    · rw [if_pos hbal] at h; cases h
    · rw [if_neg hbal] at h
      cases h
      cases u
      exact ⟨require_admin_ok hra, rfl, by omega, rfl, rfl, rfl, rfl⟩

/-! ### Materialization -/

/-- The placeholder vault `initialize_vault_metadata` synthesizes for an
unknown id, owned by the current contract address. -/
def phantomVault (caller : Nat) : Vault :=
  { owner := caller, total_amount := 0, released_amount := 0,
    start_time := 0, end_time := 0, is_initialized := false }

theorem initMeta_snd_cases (s : ContractState) (c vault_id : Nat) :
    (initialize_vault_metadata s c vault_id).2 = s ∨
    ∃ v0, (lookupE vault_id s.vaults = some v0 ∨
            (lookupE vault_id s.vaults = none ∧ v0 = phantomVault c)) ∧
      v0.is_initialized = false ∧
      (initialize_vault_metadata s c vault_id).2 =
        { s with vaults := setEntry vault_id ({ v0 with is_initialized := true }) s.vaults,
                 user_vaults :=
                   setEntry v0.owner (uvGet s v0.owner ++ [vault_id]) s.user_vaults } := by
  unfold initialize_vault_metadata
  cases hlook : lookupE vault_id s.vaults with
  | none =>
    right
    exact ⟨phantomVault c, Or.inr ⟨rfl, rfl⟩, rfl, rfl⟩
  | some v0 =>
    cases hinit : v0.is_initialized with
    | false =>
      right
      refine ⟨v0, Or.inl rfl, hinit, ?_⟩
      simp [hinit, uvGet]
    | true =>
      left
      simp [hinit]

theorem initMeta_scalars (s : ContractState) (c vault_id : Nat) :
    (initialize_vault_metadata s c vault_id).2.vault_count = s.vault_count ∧
    (initialize_vault_metadata s c vault_id).2.admin_balance = s.admin_balance ∧
    (initialize_vault_metadata s c vault_id).2.initial_supply = s.initial_supply := by
  rcases initMeta_snd_cases s c vault_id with h | ⟨v0, hv0, hinit, h⟩ <;>
    rw [h] <;> exact ⟨rfl, rfl, rfl⟩

theorem initMeta_phantom {s : ContractState} (c vault_id : Nat) (hp : phantomInv s) :
    phantomInv (initialize_vault_metadata s c vault_id).2 := by
  rcases initMeta_snd_cases s c vault_id with h | ⟨v0, hv0, hinit, h⟩
  · rw [h]; exact hp
  · rw [h]
    intro k w hw hk
    simp only [lookupE_setEntry] at hw
    by_cases hkid : k = vault_id
    · subst hkid
      rw [if_pos rfl] at hw
      cases hw
      rcases hv0 with hv0 | ⟨hnone, rfl⟩
      · exact hp k v0 hv0 hk
      · exact ⟨rfl, rfl⟩
    · rw [if_neg hkid] at hw
      exact hp k w hw hk

theorem initMeta_bounds {s : ContractState} (c vault_id : Nat) (hb : boundsInv s) :
    boundsInv (initialize_vault_metadata s c vault_id).2 := by
  rcases initMeta_snd_cases s c vault_id with h | ⟨v0, hv0, hinit, h⟩
  · rw [h]; exact hb
  · rw [h]
    intro k w hw
    simp only [lookupE_setEntry] at hw
    by_cases hkid : k = vault_id
    · subst hkid
      rw [if_pos rfl] at hw
      cases hw
      rcases hv0 with hv0 | ⟨hnone, rfl⟩
      · exact hb k v0 hv0
      · exact ⟨le_refl 0, le_max_right _ _⟩
    · rw [if_neg hkid] at hw
      exact hb k w hw

theorem initMeta_mono (s : ContractState) (c vault_id : Nat) :
    releasedMono s (initialize_vault_metadata s c vault_id).2 := by
  rcases initMeta_snd_cases s c vault_id with h | ⟨v0, hv0, hinit, h⟩
  · rw [h]; exact releasedMono_refl s
  · rw [h]
    intro k v hv
    simp only [lookupE_setEntry]
    by_cases hkid : k = vault_id
    · subst hkid
      rw [if_pos rfl]
      rcases hv0 with hv0 | ⟨hnone, rfl⟩
      · have heq := hv.symm.trans hv0
        cases heq
        exact ⟨_, rfl, le_refl _⟩
      · rw [hv] at hnone; cases hnone
    · rw [if_neg hkid]
      exact ⟨v, hv, le_refl _⟩

theorem initMeta_sum (s : ContractState) (c vault_id : Nat) :
    sumTotals (initialize_vault_metadata s c vault_id).2.vaults = sumTotals s.vaults := by
  rcases initMeta_snd_cases s c vault_id with h | ⟨v0, hv0, hinit, h⟩
  · rw [h]
  · rw [h]
    simp only []
    rcases hv0 with hv0 | ⟨hnone, rfl⟩
    · rw [sumTotals_setEntry_some hv0]
      simp only []
      omega
    · rw [sumTotals_setEntry_none hnone]
      simp [phantomVault]

/-! ### Batch creation loop -/

theorem batchStep_lookup (eager : Bool) (s : ContractState) (k r : Nat) (a : Int)
    (st en : Nat) (j : Nat) :
    lookupE j (batchStepState eager s k r a st en).vaults =
      if j = k + 1 then
        some { owner := r, total_amount := a, released_amount := 0,
               start_time := st, end_time := en, is_initialized := eager }
      else lookupE j s.vaults := by
  cases eager <;> simp [batchStepState, lookupE_setEntry]

theorem batchStep_scalars (eager : Bool) (s : ContractState) (k r : Nat) (a : Int)
    (st en : Nat) :
    (batchStepState eager s k r a st en).vault_count = s.vault_count ∧
    (batchStepState eager s k r a st en).admin_balance = s.admin_balance ∧
    (batchStepState eager s k r a st en).initial_supply = s.initial_supply := by
  cases eager <;> exact ⟨rfl, rfl, rfl⟩

theorem batchLoop_nil_ok {eager : Bool} {s : ContractState} {k : Nat}
    {amts : List Int} {sts ens : List Nat} {ids : List Nat} {s1 : ContractState}
    (h : batchLoop eager s k [] amts sts ens = .ok (ids, s1)) :
    ids = [] ∧ s1 = s := by
  simp [batchLoop] at h
  exact ⟨h.1, h.2.symm⟩

theorem batchLoop_cons_ok {eager : Bool} {s : ContractState} {k r : Nat}
    {rs : List Nat} {a : Int} {amts : List Int} {st : Nat} {sts : List Nat}
    {en : Nat} {ens : List Nat} {ids : List Nat} {s1 : ContractState}
    (h : batchLoop eager s k (r :: rs) (a :: amts) (st :: sts) (en :: ens) = .ok (ids, s1)) :
    ∃ ids2,
      batchLoop eager (batchStepState eager s k r a st en) (k + 1) rs amts sts ens =
        .ok (ids2, s1) ∧ ids = (k + 1) :: ids2 := by
  unfold batchLoop at h
  split at h
  · rename_i ids2 s3 hrec
    cases h
    exact ⟨ids2, hrec, rfl⟩
  · cases h

theorem batchLoop_err {eager : Bool} {s : ContractState} {k : Nat}
    {rs : List Nat} {amts : List Int} {sts ens : List Nat} {e : Err}
    (h : batchLoop eager s k rs amts sts ens = .error e) : e = .IndexOutOfBounds := by
  induction rs generalizing s k amts sts ens with
  | nil => simp [batchLoop] at h
  | cons r rs ih =>
    cases amts with
    | nil => simp [batchLoop] at h; exact h.symm
    | cons a amts =>
      cases sts with
      | nil => simp [batchLoop] at h; exact h.symm
      | cons st sts =>
        cases ens with
        | nil => simp [batchLoop] at h; exact h.symm
        | cons en ens =>
          unfold batchLoop at h
          split at h
          · cases h
          · rename_i e2 hrec
            cases h
            exact ih hrec

theorem batchLoop_oob {eager : Bool} {s : ContractState} {k : Nat}
    {rs : List Nat} {amts : List Int} {sts ens : List Nat}
    (h : amts.length < rs.length ∨ sts.length < rs.length ∨ ens.length < rs.length) :
    batchLoop eager s k rs amts sts ens = .error .IndexOutOfBounds := by
  induction rs generalizing s k amts sts ens with
  | nil => simp at h
  | cons r rs ih =>
    cases amts with
    | nil => rfl
    | cons a amts =>
      cases sts with
      | nil => rfl
      | cons st sts =>
        cases ens with
        | nil => rfl
        | cons en ens =>
          have htail : amts.length < rs.length ∨ sts.length < rs.length ∨
              ens.length < rs.length := by
            simp only [List.length_cons] at h
            omega
          unfold batchLoop
          rw [ih htail]

theorem batchLoop_untouched {eager : Bool} {rs : List Nat} {s : ContractState}
    {k : Nat} {amts : List Int} {sts ens : List Nat} {ids : List Nat}
    {s1 : ContractState}
    (h : batchLoop eager s k rs amts sts ens = .ok (ids, s1)) :
    ∀ j, (j ≤ k ∨ k + rs.length < j) → lookupE j s1.vaults = lookupE j s.vaults := by
  induction rs generalizing s k amts sts ens ids with
  | nil =>
    obtain ⟨-, rfl⟩ := batchLoop_nil_ok h
    intro j hj
    rfl
  | cons r rs ih =>
    cases amts with
    | nil => simp [batchLoop] at h
    | cons a amts =>
      cases sts with
      | nil => simp [batchLoop] at h
      | cons st sts =>
        cases ens with
        | nil => simp [batchLoop] at h
        | cons en ens =>
          obtain ⟨ids2, hrec, rfl⟩ := batchLoop_cons_ok h
          intro j hj
          have hj2 : j ≤ k + 1 ∨ (k + 1) + rs.length < j := by
            simp only [List.length_cons] at hj
            omega
          have hj3 : j ≠ k + 1 := by
            simp only [List.length_cons] at hj
            omega
          rw [ih hrec j hj2, batchStep_lookup, if_neg hj3]

theorem batchLoop_new {eager : Bool} {rs : List Nat} {s : ContractState}
    {k : Nat} {amts : List Int} {sts ens : List Nat} {ids : List Nat}
    {s1 : ContractState}
    (h : batchLoop eager s k rs amts sts ens = .ok (ids, s1)) :
    ∀ j w, lookupE j s1.vaults = some w →
      lookupE j s.vaults = some w ∨
        (w.released_amount = 0 ∧ k < j ∧ j ≤ k + rs.length) := by
  induction rs generalizing s k amts sts ens ids with
  | nil =>
    obtain ⟨-, rfl⟩ := batchLoop_nil_ok h
    intro j w hw
    exact Or.inl hw
  | cons r rs ih =>
    cases amts with
    | nil => simp [batchLoop] at h
    | cons a amts =>
      cases sts with
      | nil => simp [batchLoop] at h
      | cons st sts =>
        cases ens with
        | nil => simp [batchLoop] at h
        | cons en ens =>
          obtain ⟨ids2, hrec, rfl⟩ := batchLoop_cons_ok h
          intro j w hw
          rcases ih hrec j w hw with hcase | ⟨hrel, hlo, hhi⟩
          · rw [batchStep_lookup] at hcase
            by_cases hj : j = k + 1
            · rw [if_pos hj] at hcase
              cases hcase
              refine Or.inr ⟨rfl, by omega, by simp only [List.length_cons]; omega⟩
            · rw [if_neg hj] at hcase
              exact Or.inl hcase
          · exact Or.inr ⟨hrel, by omega, by simp only [List.length_cons]; omega⟩

theorem batchLoop_sum {eager : Bool} {rs : List Nat} {s : ContractState}
    {k : Nat} {amts : List Int} {sts ens : List Nat} {ids : List Nat}
    {s1 : ContractState} (hlen : rs.length = amts.length)
    (h : batchLoop eager s k rs amts sts ens = .ok (ids, s1))
    (hph : ∀ j w, k < j → lookupE j s.vaults = some w → w.total_amount = 0) :
    sumTotals s1.vaults = sumTotals s.vaults + sumAmounts amts := by
  induction rs generalizing s k amts sts ens ids with
  | nil =>
    cases amts with
    | nil =>
      obtain ⟨-, rfl⟩ := batchLoop_nil_ok h
      simp [sumAmounts]
    | cons a t => simp at hlen
  | cons r rs ih =>
    cases amts with
    | nil => simp at hlen
    | cons a amts =>
      cases sts with
      | nil => simp [batchLoop] at h
      | cons st sts =>
        cases ens with
        | nil => simp [batchLoop] at h
        | cons en ens =>
          obtain ⟨ids2, hrec, rfl⟩ := batchLoop_cons_ok h
          have hstep : sumTotals (batchStepState eager s k r a st en).vaults =
              sumTotals s.vaults + a := by
            have hv : (batchStepState eager s k r a st en).vaults =
                setEntry (k + 1)
                  ({ owner := r, total_amount := a, released_amount := 0,
                     start_time := st, end_time := en, is_initialized := eager })
                  s.vaults := by
              cases eager <;> rfl
            rw [hv]
            cases hlook : lookupE (k + 1) s.vaults with
            | none => rw [sumTotals_setEntry_none hlook]
            | some w =>
              rw [sumTotals_setEntry_some hlook]
              have := hph (k + 1) w (by omega) hlook
              simp only []
              omega
          have hph2 : ∀ j w, k + 1 < j →
              lookupE j (batchStepState eager s k r a st en).vaults = some w →
              w.total_amount = 0 := by
            intro j w hj hw
            rw [batchStep_lookup, if_neg (by omega)] at hw
            exact hph j w (by omega) hw
          rw [ih (by simpa using hlen) hrec hph2, hstep]
          simp only [sumAmounts]
          omega

theorem batchLoop_ok_exists {eager : Bool} {rs : List Nat} {amts : List Int}
    {sts ens : List Nat} (s : ContractState) (k : Nat)
    (hA : rs.length ≤ amts.length) (hS : rs.length ≤ sts.length)
    (hE : rs.length ≤ ens.length) :
    ∃ s1, batchLoop eager s k rs amts sts ens =
        .ok ((List.range rs.length).map (fun i => k + i + 1), s1) ∧
      ∀ i (hi : i < rs.length),
        lookupE (k + i + 1) s1.vaults =
          some { owner := rs.get ⟨i, hi⟩,
                 total_amount := amts.get ⟨i, lt_of_lt_of_le hi hA⟩,
                 released_amount := 0,
                 start_time := sts.get ⟨i, lt_of_lt_of_le hi hS⟩,
                 end_time := ens.get ⟨i, lt_of_lt_of_le hi hE⟩,
                 is_initialized := eager } := by
  induction rs generalizing s k amts sts ens with
  | nil =>
    refine ⟨s, by simp [batchLoop], ?_⟩
    intro i hi
    simp at hi
  | cons r rs ih =>
    cases amts with
    | nil => simp at hA
    | cons a amts =>
      cases sts with
      | nil => simp at hS
      | cons st sts =>
        cases ens with
        | nil => simp at hE
        | cons en ens =>
          obtain ⟨s1, heq, hlook⟩ :=
            ih (batchStepState eager s k r a st en) (k + 1)
              (by simpa using hA) (by simpa using hS) (by simpa using hE)
          refine ⟨s1, ?_, ?_⟩
          · have hstep : batchLoop eager s k (r :: rs) (a :: amts) (st :: sts) (en :: ens) =
                .ok ((k + 1) :: (List.range rs.length).map (fun i => (k + 1) + i + 1), s1) := by
              unfold batchLoop
              rw [heq]
            rw [hstep]
            congr 2
            simp only [List.length_cons, List.range_succ_eq_map, List.map_cons, List.map_map]
            congr 1
            apply List.map_congr_left
            intro i hi
            simp only [Function.comp_apply]
            omega
          · intro i hi
            cases i with
            | zero =>
              have huntouched :=
                batchLoop_untouched heq (k + 1) (Or.inl (le_refl (k + 1)))
              rw [show k + 0 + 1 = k + 1 from rfl, huntouched, batchStep_lookup, if_pos rfl]
              rfl
            | succ i =>
              have hi2 : i < rs.length := by
                simp only [List.length_cons] at hi
                omega
              have hidx : k + (i + 1) + 1 = (k + 1) + i + 1 := by omega
              rw [hidx]
              simpa using hlook i hi2

theorem batchLoop_scalars {eager : Bool} {rs : List Nat} {s : ContractState}
    {k : Nat} {amts : List Int} {sts ens : List Nat} {ids : List Nat}
    {s1 : ContractState}
    (h : batchLoop eager s k rs amts sts ens = .ok (ids, s1)) :
    s1.vault_count = s.vault_count ∧ s1.admin_balance = s.admin_balance ∧
      s1.initial_supply = s.initial_supply := by
  induction rs generalizing s k amts sts ens ids with
  | nil =>
    obtain ⟨-, rfl⟩ := batchLoop_nil_ok h
    exact ⟨rfl, rfl, rfl⟩
  | cons r rs ih =>
    cases amts with
    | nil => simp [batchLoop] at h
    | cons a amts =>
      cases sts with
      | nil => simp [batchLoop] at h
      | cons st sts =>
        cases ens with
        | nil => simp [batchLoop] at h
        | cons en ens =>
          obtain ⟨ids2, hrec, rfl⟩ := batchLoop_cons_ok h
          obtain ⟨h1, h2, h3⟩ := ih hrec
          obtain ⟨g1, g2, g3⟩ := batchStep_scalars eager s k r a st en
          exact ⟨h1.trans g1, h2.trans g2, h3.trans g3⟩

theorem batchLoop_covers {eager : Bool} {rs : List Nat} {s : ContractState}
    {k : Nat} {amts : List Int} {sts ens : List Nat} {ids : List Nat}
    {s1 : ContractState}
    (h : batchLoop eager s k rs amts sts ens = .ok (ids, s1)) :
    ∀ j, k < j → j ≤ k + rs.length →
      ∃ w, lookupE j s1.vaults = some w ∧ w.released_amount = 0 := by
  induction rs generalizing s k amts sts ens ids with
  | nil =>
    intro j hj1 hj2
    exfalso
    simp only [List.length_nil] at hj2
    omega
  | cons r rs ih =>
    cases amts with
    | nil => simp [batchLoop] at h
    | cons a amts =>
      cases sts with
      | nil => simp [batchLoop] at h
      | cons st sts =>
        cases ens with
        | nil => simp [batchLoop] at h
        | cons en ens =>
          obtain ⟨ids2, hrec, rfl⟩ := batchLoop_cons_ok h
          intro j hj1 hj2
          by_cases hj : j = k + 1
          · subst hj
            have huntouched :=
              batchLoop_untouched hrec (k + 1) (Or.inl (le_refl (k + 1)))
            rw [huntouched, batchStep_lookup, if_pos rfl]
            exact ⟨_, rfl, rfl⟩
          · exact ih hrec j (by omega) (by simp only [List.length_cons] at hj2; omega)

/-! ### Batch creation entry points -/

theorem batch_lazy_ok {s : ContractState} {c : Nat} {bd : BatchCreateData}
    {ids : List Nat} {s1 : ContractState}
    (h : batch_create_vaults_lazy s c bd = .ok (ids, s1)) :
    s.admin_address = some c ∧ sumAmounts bd.amounts ≤ s.admin_balance.getD 0 ∧
    ∃ s2,
      batchLoop false
          { s with admin_balance := some (s.admin_balance.getD 0 - sumAmounts bd.amounts) }
          (s.vault_count.getD 0) bd.recipients bd.amounts bd.start_times bd.end_times
        = .ok (ids, s2) ∧
      s1 = { s2 with vault_count := some (s.vault_count.getD 0 + bd.recipients.length) } := by
  unfold batch_create_vaults_lazy at h
  cases hra : require_admin s c with
  | error e => rw [hra] at h; cases h
  | ok u =>
    rw [hra] at h
    simp only [] at h
    by_cases hbal : s.admin_balance.getD 0 < sumAmounts bd.amounts
    · rw [if_pos hbal] at h; cases h
    · rw [if_neg hbal] at h
      split at h
      · rename_i ids2 s2 hloop
        cases h
        exact ⟨require_admin_ok hra, by omega, s2, hloop, rfl⟩
      · cases h

theorem batch_full_ok {s : ContractState} {c : Nat} {bd : BatchCreateData}
    {ids : List Nat} {s1 : ContractState}
    (h : batch_create_vaults_full s c bd = .ok (ids, s1)) :
    s.admin_address = some c ∧ sumAmounts bd.amounts ≤ s.admin_balance.getD 0 ∧
    ∃ s2,
      batchLoop true
          { s with admin_balance := some (s.admin_balance.getD 0 - sumAmounts bd.amounts) }
          (s.vault_count.getD 0) bd.recipients bd.amounts bd.start_times bd.end_times
        = .ok (ids, s2) ∧
      s1 = { s2 with vault_count := some (s.vault_count.getD 0 + bd.recipients.length) } := by
  unfold batch_create_vaults_full at h
  cases hra : require_admin s c with
  | error e => rw [hra] at h; cases h
  | ok u =>
    rw [hra] at h
    simp only [] at h
    by_cases hbal : s.admin_balance.getD 0 < sumAmounts bd.amounts
    · rw [if_pos hbal] at h; cases h
    · rw [if_neg hbal] at h
      split at h
      · rename_i ids2 s2 hloop
        cases h
        exact ⟨require_admin_ok hra, by omega, s2, hloop, rfl⟩
      · cases h

theorem batch_preserve {eager : Bool} {s : ContractState} {bd : BatchCreateData}
    {ids : List Nat} {s1 s2 : ContractState}
    (hloop : batchLoop eager
        { s with admin_balance := some (s.admin_balance.getD 0 - sumAmounts bd.amounts) }
        (s.vault_count.getD 0) bd.recipients bd.amounts bd.start_times bd.end_times
      = .ok (ids, s2))
    (hs1 : s1 = { s2 with vault_count := some (s.vault_count.getD 0 + bd.recipients.length) }) :
    (phantomInv s → phantomInv s1) ∧ (boundsInv s → boundsInv s1) ∧
      (phantomInv s → releasedMono s s1) := by
  subst hs1
  refine ⟨?_, ?_, ?_⟩
  · intro hp k w hw hk
    simp only [Option.getD_some] at hk
    rcases batchLoop_new hloop k w hw with hold | ⟨hrel, hlo, hhi⟩
    · exact hp k w hold (by omega)
    · omega
  · intro hb k w hw
    rcases batchLoop_new hloop k w hw with hold | ⟨hrel, hlo, hhi⟩
    · exact hb k w hold
    · exact ⟨by omega, by rw [hrel]; exact le_max_right _ _⟩
  · intro hp k v hv
    by_cases hwin : s.vault_count.getD 0 < k ∧ k ≤ s.vault_count.getD 0 + bd.recipients.length
    · obtain ⟨w, hw, hrel⟩ := batchLoop_covers hloop k hwin.1 hwin.2
      have hv0 : v.released_amount = 0 := (hp k v hv hwin.1).2
      exact ⟨w, hw, by omega⟩
    · have huntouched := batchLoop_untouched hloop k (by omega)
      exact ⟨v, by rw [huntouched]; exact hv, le_refl _⟩

theorem batch_cons {eager : Bool} {s : ContractState} {bd : BatchCreateData}
    {ids : List Nat} {s1 s2 : ContractState}
    (hlen : bd.recipients.length = bd.amounts.length)
    (hloop : batchLoop eager
        { s with admin_balance := some (s.admin_balance.getD 0 - sumAmounts bd.amounts) }
        (s.vault_count.getD 0) bd.recipients bd.amounts bd.start_times bd.end_times
      = .ok (ids, s2))
    (hs1 : s1 = { s2 with vault_count := some (s.vault_count.getD 0 + bd.recipients.length) })
    (hp : phantomInv s) (hc : consEq s) : consEq s1 := by
  subst hs1
  have hsum := batchLoop_sum hlen hloop
    (fun j w hj hw => (hp j w hw hj).1)
  obtain ⟨-, hbal, hsup⟩ := batchLoop_scalars hloop
  unfold consEq at hc ⊢
  simp only []
  rw [hsum, hbal, hsup]
  simp only [Option.getD_some]
  omega

/-! ### Read-path materialization -/

theorem guvStep_cases (c u : Nat) (s : ContractState) (vault_id : Nat) :
    guvStep c u s vault_id = s ∨
      guvStep c u s vault_id = (initialize_vault_metadata s c vault_id).2 := by
  unfold guvStep
  simp only []
  split
  · right; rfl
  · left; rfl

theorem guvLoop_phantom {c u : Nat} {l : List Nat} {s : ContractState}
    (hp : phantomInv s) : phantomInv (guvLoop c u s l) := by
  induction l generalizing s with
  | nil => exact hp
  | cons vid rest ih =>
    show phantomInv (guvLoop c u (guvStep c u s vid) rest)
    rcases guvStep_cases c u s vid with h | h <;> rw [h]
    · exact ih hp
    · exact ih (initMeta_phantom c vid hp)

theorem guvLoop_bounds {c u : Nat} {l : List Nat} {s : ContractState}
    (hb : boundsInv s) : boundsInv (guvLoop c u s l) := by
  induction l generalizing s with
  | nil => exact hb
  | cons vid rest ih =>
    show boundsInv (guvLoop c u (guvStep c u s vid) rest)
    rcases guvStep_cases c u s vid with h | h <;> rw [h]
    · exact ih hb
    · exact ih (initMeta_bounds c vid hb)

theorem guvLoop_mono {c u : Nat} {l : List Nat} {s : ContractState} :
    releasedMono s (guvLoop c u s l) := by
  induction l generalizing s with
  | nil => exact releasedMono_refl s
  | cons vid rest ih =>
    show releasedMono s (guvLoop c u (guvStep c u s vid) rest)
    rcases guvStep_cases c u s vid with h | h <;> rw [h]
    · exact ih
    · exact releasedMono_trans (initMeta_mono s c vid) ih

theorem guvLoop_sum {c u : Nat} {l : List Nat} {s : ContractState} :
    sumTotals (guvLoop c u s l).vaults = sumTotals s.vaults := by
  induction l generalizing s with
  | nil => rfl
  | cons vid rest ih =>
    show sumTotals (guvLoop c u (guvStep c u s vid) rest).vaults = _
    rcases guvStep_cases c u s vid with h | h <;> rw [h]
    · exact ih
    · rw [ih, initMeta_sum]

theorem guvLoop_scalars {c u : Nat} {l : List Nat} {s : ContractState} :
    (guvLoop c u s l).vault_count = s.vault_count ∧
    (guvLoop c u s l).admin_balance = s.admin_balance ∧
    (guvLoop c u s l).initial_supply = s.initial_supply := by
  induction l generalizing s with
  | nil => exact ⟨rfl, rfl, rfl⟩
  | cons vid rest ih =>
    show (guvLoop c u (guvStep c u s vid) rest).vault_count = s.vault_count ∧
      (guvLoop c u (guvStep c u s vid) rest).admin_balance = s.admin_balance ∧
      (guvLoop c u (guvStep c u s vid) rest).initial_supply = s.initial_supply
    rcases guvStep_cases c u s vid with h | h <;> rw [h]
    · exact ih
    · obtain ⟨i1, i2, i3⟩ := initMeta_scalars s c vid
      obtain ⟨g1, g2, g3⟩ := @ih (initialize_vault_metadata s c vid).2
      exact ⟨g1.trans i1, g2.trans i2, g3.trans i3⟩

theorem get_vault_state_cases {s : ContractState} {c vault_id : Nat} {v : Vault}
    {s1 : ContractState} (h : get_vault s c vault_id = .ok (v, s1)) :
    s1 = s ∨ s1 = (initialize_vault_metadata s c vault_id).2 := by
  unfold get_vault at h
  simp only [] at h
  split at h
  · split at h
    · cases h
      right
      rfl
    · cases h
  · cases h
    left
    rfl

theorem claim_all_ok_go {s : ContractState} {ids : List Nat} {amts : List Int}
    {res : List Int} {s1 : ContractState}
    (h : claim_all s ids amts = .ok (res, s1)) :
    claimAllGo s ids amts = .ok (res, s1) ∧ ids.length = amts.length := by
  unfold claim_all at h
  by_cases hlen : ids.length ≠ amts.length
  · rw [if_pos hlen] at h; cases h
  · rw [if_neg hlen] at h
    by_cases hz : ids.length = 0
    · rw [if_pos hz] at h; cases h
    · rw [if_neg hz] at h
      exact ⟨h, not_not.mp hlen⟩

/-! ### The initial state -/

theorem initializeOp_phantom (a : Nat) (sup : Int) :
    phantomInv (initializeOp emptyState a sup) := by
  intro k v hv
  cases hv

theorem initializeOp_bounds (a : Nat) (sup : Int) :
    boundsInv (initializeOp emptyState a sup) := by
  intro k v hv
  cases hv

theorem initializeOp_cons (a : Nat) (sup : Int) :
    consEq (initializeOp emptyState a sup) := by
  unfold consEq
  show sumTotals [] + sup = sup
  simp [sumTotals]

/-! ### Completed operations and reachable states -/

/-- One completed (successful) invocation of a contract operation after
deployment.  The flag chooses the step vocabulary: `false` places no
condition on batch inputs; `true` restricts batch creations to inputs with
exactly as many amounts as recipients (the source performs no such length
check, and conservation needs it; see the C1 theorems). -/
inductive Step : Bool → ContractState → ContractState → Prop where
  | propose (strict : Bool) (s s1 : ContractState) (c na : Nat)
      (h : propose_new_admin s c na = .ok s1) : Step strict s s1
  | accept (strict : Bool) (s s1 : ContractState) (c : Nat)
      (h : accept_ownership s c = .ok s1) : Step strict s s1
  | createFull (strict : Bool) (s s1 : ContractState) (c o : Nat) (a : Int)
      (st en vid : Nat) (h : create_vault_full s c o a st en = .ok (vid, s1)) :
      Step strict s s1
  | createLazy (strict : Bool) (s s1 : ContractState) (c o : Nat) (a : Int)
      (st en vid : Nat) (h : create_vault_lazy s c o a st en = .ok (vid, s1)) :
      Step strict s s1
  | initMeta (strict : Bool) (s : ContractState) (c vid : Nat) :
      Step strict s (initialize_vault_metadata s c vid).2
  | claimTok (strict : Bool) (s s1 : ContractState) (vid : Nat) (amt r : Int)
      (h : claim_tokens s vid amt = .ok (r, s1)) : Step strict s s1
  | claimAllStep (strict : Bool) (s s1 : ContractState) (ids : List Nat)
      (amts res : List Int) (h : claim_all s ids amts = .ok (res, s1)) :
      Step strict s s1
  | batchLazy (strict : Bool) (s s1 : ContractState) (c : Nat)
      (bd : BatchCreateData) (ids : List Nat)
      (hstrict : strict = true → bd.recipients.length = bd.amounts.length)
      (h : batch_create_vaults_lazy s c bd = .ok (ids, s1)) : Step strict s s1
  | batchFull (strict : Bool) (s s1 : ContractState) (c : Nat)
      (bd : BatchCreateData) (ids : List Nat)
      (hstrict : strict = true → bd.recipients.length = bd.amounts.length)
      (h : batch_create_vaults_full s c bd = .ok (ids, s1)) : Step strict s s1
  | getVaultStep (strict : Bool) (s s1 : ContractState) (c vid : Nat) (v : Vault)
      (h : get_vault s c vid = .ok (v, s1)) : Step strict s s1
  | getUserVaultsStep (strict : Bool) (s : ContractState) (c u : Nat) :
      Step strict s (get_user_vaults s c u).2

/-- States reachable from a fresh deployment by `initialize` followed by
any sequence of completed operations. -/
inductive Reachable : Bool → ContractState → Prop where
  | base (strict : Bool) (admin : Nat) (supply : Int) :
      Reachable strict (initializeOp emptyState admin supply)
  | step (strict : Bool) (s s1 : ContractState) (hs : Reachable strict s)
      (h : Step strict s s1) : Reachable strict s1

theorem step_phantom {b : Bool} {s s1 : ContractState} (hstep : Step b s s1)
    (hp : phantomInv s) : phantomInv s1 := by
  cases hstep with
  | propose s1 c na h =>
    obtain ⟨-, rfl⟩ := propose_ok h
    exact fun k v hv hk => hp k v hv hk
  | accept s1 c h =>
    obtain ⟨-, rfl⟩ := accept_ok h
    exact fun k v hv hk => hp k v hv hk
  | createFull s1 c o a st en vid h =>
    obtain ⟨-, hvid, -, hvaults, hcnt, -, -⟩ := create_vault_full_ok h
    intro k w hw hk
    rw [hvaults, lookupE_setEntry] at hw
    rw [hcnt] at hk
    simp only [Option.getD_some] at hk
    by_cases hkv : k = vid
    · omega
    · rw [if_neg hkv] at hw
      exact hp k w hw (by omega)
  | createLazy s1 c o a st en vid h =>
    obtain ⟨-, hvid, -, hvaults, hcnt, -, -⟩ := create_vault_lazy_ok h
    intro k w hw hk
    rw [hvaults, lookupE_setEntry] at hw
    rw [hcnt] at hk
    simp only [Option.getD_some] at hk
    by_cases hkv : k = vid
    · omega
    · rw [if_neg hkv] at hw
      exact hp k w hw (by omega)
  | initMeta c vid => exact initMeta_phantom c vid hp
  | claimTok s1 vid amt r h =>
    obtain ⟨-, v, hv, -, hpos, hav, rfl⟩ := claim_tokens_ok h
    exact claimUpd_phantom hv hpos hav hp
  | claimAllStep s1 ids amts res h =>
    obtain ⟨hgo, -⟩ := claim_all_ok_go h
    exact claimAllGo_phantom hgo hp
  | batchLazy s1 c bd ids hstrict h =>
    obtain ⟨-, -, s2, hloop, hs1⟩ := batch_lazy_ok h
    exact (batch_preserve hloop hs1).1 hp
  | batchFull s1 c bd ids hstrict h =>
    obtain ⟨-, -, s2, hloop, hs1⟩ := batch_full_ok h
    exact (batch_preserve hloop hs1).1 hp
  | getVaultStep s1 c vid v h =>
    rcases get_vault_state_cases h with rfl | rfl
    · exact hp
    · exact initMeta_phantom c vid hp
  | getUserVaultsStep c u => exact guvLoop_phantom hp

theorem step_bounds {b : Bool} {s s1 : ContractState} (hstep : Step b s s1)
    (hb : boundsInv s) : boundsInv s1 := by
  cases hstep with
  | propose s1 c na h =>
    obtain ⟨-, rfl⟩ := propose_ok h
    exact fun k v hv => hb k v hv
  | accept s1 c h =>
    obtain ⟨-, rfl⟩ := accept_ok h
    exact fun k v hv => hb k v hv
  | createFull s1 c o a st en vid h =>
    obtain ⟨-, hvid, -, hvaults, -, -, -⟩ := create_vault_full_ok h
    intro k w hw
    rw [hvaults, lookupE_setEntry] at hw
    by_cases hkv : k = vid
    · rw [if_pos hkv] at hw
      cases hw
      exact ⟨le_refl 0, le_max_right _ _⟩
    · rw [if_neg hkv] at hw
      exact hb k w hw
  | createLazy s1 c o a st en vid h =>
    obtain ⟨-, hvid, -, hvaults, -, -, -⟩ := create_vault_lazy_ok h
    intro k w hw
    rw [hvaults, lookupE_setEntry] at hw
    by_cases hkv : k = vid
    · rw [if_pos hkv] at hw
      cases hw
      exact ⟨le_refl 0, le_max_right _ _⟩
    · rw [if_neg hkv] at hw
      exact hb k w hw
  | initMeta c vid => exact initMeta_bounds c vid hb
  | claimTok s1 vid amt r h =>
    obtain ⟨-, v, hv, -, hpos, hav, rfl⟩ := claim_tokens_ok h
    exact claimUpd_bounds hv hpos hav hb
  | claimAllStep s1 ids amts res h =>
    obtain ⟨hgo, -⟩ := claim_all_ok_go h
    exact claimAllGo_bounds hgo hb
  | batchLazy s1 c bd ids hstrict h =>
    obtain ⟨-, -, s2, hloop, hs1⟩ := batch_lazy_ok h
    exact (batch_preserve hloop hs1).2.1 hb
  | batchFull s1 c bd ids hstrict h =>
    obtain ⟨-, -, s2, hloop, hs1⟩ := batch_full_ok h
    exact (batch_preserve hloop hs1).2.1 hb
  | getVaultStep s1 c vid v h =>
    rcases get_vault_state_cases h with rfl | rfl
    · exact hb
    · exact initMeta_bounds c vid hb
  | getUserVaultsStep c u => exact guvLoop_bounds hb

theorem step_mono {b : Bool} {s s1 : ContractState} (hstep : Step b s s1)
    (hp : phantomInv s) : releasedMono s s1 := by
  cases hstep with
  | propose s1 c na h =>
    obtain ⟨-, rfl⟩ := propose_ok h
    exact fun k v hv => ⟨v, hv, le_refl _⟩
  | accept s1 c h =>
    obtain ⟨-, rfl⟩ := accept_ok h
    exact fun k v hv => ⟨v, hv, le_refl _⟩
  | createFull s1 c o a st en vid h =>
    obtain ⟨-, hvid, -, hvaults, -, -, -⟩ := create_vault_full_ok h
    intro k v hv
    by_cases hkv : k = vid
    · subst hkv
      have hrel := (hp k v hv (by omega)).2
      refine ⟨_, by rw [hvaults, lookupE_setEntry, if_pos rfl], ?_⟩
      rw [hrel]
    · exact ⟨v, by rw [hvaults, lookupE_setEntry, if_neg hkv]; exact hv, le_refl _⟩
  | createLazy s1 c o a st en vid h =>
    obtain ⟨-, hvid, -, hvaults, -, -, -⟩ := create_vault_lazy_ok h
    intro k v hv
    by_cases hkv : k = vid
    · subst hkv
      have hrel := (hp k v hv (by omega)).2
      refine ⟨_, by rw [hvaults, lookupE_setEntry, if_pos rfl], ?_⟩
      rw [hrel]
    · exact ⟨v, by rw [hvaults, lookupE_setEntry, if_neg hkv]; exact hv, le_refl _⟩
  | initMeta c vid => exact initMeta_mono s c vid
  | claimTok s1 vid amt r h =>
    obtain ⟨-, v, hv, -, hpos, hav, rfl⟩ := claim_tokens_ok h
    exact claimUpd_mono hv hpos
  | claimAllStep s1 ids amts res h =>
    obtain ⟨hgo, -⟩ := claim_all_ok_go h
    exact claimAllGo_mono hgo
  | batchLazy s1 c bd ids hstrict h =>
    obtain ⟨-, -, s2, hloop, hs1⟩ := batch_lazy_ok h
    exact (batch_preserve hloop hs1).2.2 hp
  | batchFull s1 c bd ids hstrict h =>
    obtain ⟨-, -, s2, hloop, hs1⟩ := batch_full_ok h
    exact (batch_preserve hloop hs1).2.2 hp
  | getVaultStep s1 c vid v h =>
    rcases get_vault_state_cases h with rfl | rfl
    · exact releasedMono_refl _
    · exact initMeta_mono s c vid
  | getUserVaultsStep c u => exact guvLoop_mono

theorem step_cons {s s1 : ContractState} (hstep : Step true s s1)
    (hp : phantomInv s) (hc : consEq s) : consEq s1 := by
  cases hstep with
  | propose s1 c na h =>
    obtain ⟨-, rfl⟩ := propose_ok h
    exact hc
  | accept s1 c h =>
    obtain ⟨-, rfl⟩ := accept_ok h
    exact hc
  | createFull s1 c o a st en vid h =>
    obtain ⟨-, hvid, hle, hvaults, -, hbal, hsup⟩ := create_vault_full_ok h
    unfold consEq at hc ⊢
    rw [hvaults, hbal, hsup]
    cases hlook : lookupE vid s.vaults with
    | none =>
      rw [sumTotals_setEntry_none hlook]
      simp only [Option.getD_some]
      omega
    | some w =>
      have hwt : w.total_amount = 0 := (hp vid w hlook (by omega)).1
      rw [sumTotals_setEntry_some hlook]
      simp only [Option.getD_some]
      omega
  | createLazy s1 c o a st en vid h =>
    obtain ⟨-, hvid, hle, hvaults, -, hbal, hsup⟩ := create_vault_lazy_ok h
    unfold consEq at hc ⊢
    rw [hvaults, hbal, hsup]
    cases hlook : lookupE vid s.vaults with
    | none =>
      rw [sumTotals_setEntry_none hlook]
      simp only [Option.getD_some]
      omega
    | some w =>
      have hwt : w.total_amount = 0 := (hp vid w hlook (by omega)).1
      rw [sumTotals_setEntry_some hlook]
      simp only [Option.getD_some]
      omega
  | initMeta c vid =>
    obtain ⟨-, h2, h3⟩ := initMeta_scalars s c vid
    unfold consEq at hc ⊢
    rw [initMeta_sum, h2, h3]
    exact hc
  | claimTok s1 vid amt r h =>
    obtain ⟨-, v, hv, -, hpos, hav, rfl⟩ := claim_tokens_ok h
    unfold consEq at hc ⊢
    rw [claimUpd_sum hv]
    exact hc
  | claimAllStep s1 ids amts res h =>
    obtain ⟨hgo, -⟩ := claim_all_ok_go h
    obtain ⟨-, h2, h3⟩ := claimAllGo_fields hgo
    unfold consEq at hc ⊢
    rw [claimAllGo_sum hgo, h2, h3]
    exact hc
  | batchLazy s1 c bd ids hstrict h =>
    obtain ⟨-, -, s2, hloop, hs1⟩ := batch_lazy_ok h
    exact batch_cons (hstrict rfl) hloop hs1 hp hc
  | batchFull s1 c bd ids hstrict h =>
    obtain ⟨-, -, s2, hloop, hs1⟩ := batch_full_ok h
    exact batch_cons (hstrict rfl) hloop hs1 hp hc
  | getVaultStep s1 c vid v h =>
    rcases get_vault_state_cases h with rfl | rfl
    · exact hc
    · obtain ⟨-, h2, h3⟩ := initMeta_scalars s c vid
      unfold consEq at hc ⊢
      rw [initMeta_sum, h2, h3]
      exact hc
  | getUserVaultsStep c u =>
    obtain ⟨-, h2, h3⟩ := @guvLoop_scalars c u (uvGet s u) s
    unfold consEq at hc ⊢
    show sumTotals (guvLoop c u s (uvGet s u)).vaults +
        (guvLoop c u s (uvGet s u)).admin_balance.getD 0 =
      (guvLoop c u s (uvGet s u)).initial_supply.getD 0
    rw [guvLoop_sum, h2, h3]
    exact hc

theorem reachable_phantom {b : Bool} {s : ContractState} (h : Reachable b s) :
    phantomInv s := by
  induction h with
  | base a sup => exact initializeOp_phantom a sup
  | step s s1 hs hstep ih => exact step_phantom hstep ih

theorem reachable_bounds {b : Bool} {s : ContractState} (h : Reachable b s) :
    boundsInv s := by
  induction h with
  | base a sup => exact initializeOp_bounds a sup
  | step s s1 hs hstep ih => exact step_bounds hstep ih

theorem reachable_cons {s : ContractState} (h : Reachable true s) : consEq s := by
  induction h with
  | base a sup => exact initializeOp_cons a sup
  | step s s1 hs hstep ih => exact step_cons hstep (reachable_phantom hs) ih

/-! ### Concrete example states used by witnesses and counterexamples -/

/-- Freshly initialized contract: admin `1`, supply `100`. -/
def exS0 : ContractState := initializeOp emptyState 1 100

/-- `exS0` after `create_vault_full(owner 2, amount 10)`. -/
def exSvault : ContractState := callState (create_vault_full exS0 1 2 10 0 0) exS0

/-- `exS0` after `create_vault_lazy(owner 2, amount 10)`. -/
def exSlazy : ContractState := callState (create_vault_lazy exS0 1 2 10 0 0) exS0

/-- A batch whose amounts vector is longer than its recipients vector. -/
def exBDlong : BatchCreateData :=
  { recipients := [2], amounts := [10, 20], start_times := [0], end_times := [0] }

/-- A batch whose amounts vector is shorter than its recipients vector. -/
def exBDshort : BatchCreateData :=
  { recipients := [2, 3], amounts := [10], start_times := [0, 0], end_times := [0, 0] }

/-- A batch whose aggregate amount exceeds the supply of `exS0`. -/
def exBDbig : BatchCreateData :=
  { recipients := [2], amounts := [1000], start_times := [0], end_times := [0] }

/-- `exS0` after the mismatched batch `exBDlong` (which completes). -/
def exSbad : ContractState := callState (batch_create_vaults_lazy exS0 1 exBDlong) exS0

/-- `exS0` after `create_vault_full(owner 2, amount -5)` (which completes:
creation does not validate the amount). -/
def exSneg : ContractState := callState (create_vault_full exS0 1 2 (-5) 0 0) exS0

/-! ### Claim C1 -/

/-- C1 (conservation, as amended): in every state reachable by completed
operations after `initialize`, restricted to batch creations passing exactly
as many amounts as recipients, `Σ(total − released) + Σ released +
admin_balance = initial_supply`. -/
theorem C1_conservation {s : ContractState} (h : Reachable true s) :
    sumLocked s.vaults + sumReleased s.vaults + s.admin_balance.getD 0 =
      s.initial_supply.getD 0 := by
  have hc := reachable_cons h
  unfold consEq at hc
  rw [sumLocked_add_sumReleased]
  exact hc

/-- C1 counterexample: the state after `initialize(1, 100)` followed by the
completed batch creation `exBDlong` (one recipient, two amounts — the source
performs no length check) is reachable, yet violates conservation: the
admin balance is debited by 30 while only one vault holding 10 is created. -/
theorem C1_cex :
    Reachable false exSbad ∧
      ¬ (sumLocked exSbad.vaults + sumReleased exSbad.vaults +
          exSbad.admin_balance.getD 0 = exSbad.initial_supply.getD 0) := by
  constructor
  · refine Reachable.step false exS0 exSbad (Reachable.base false 1 100) ?_
    exact Step.batchLazy false exS0 exSbad 1 exBDlong [1]
      (fun hcon => by cases hcon) (by decide)
  · decide

/-- C1 witness: the conservation theorem applied to the concrete reachable
state `exSvault`. -/
theorem C1_witness :
    sumLocked exSvault.vaults + sumReleased exSvault.vaults +
      exSvault.admin_balance.getD 0 = exSvault.initial_supply.getD 0 := by
  refine C1_conservation ?_
  refine Reachable.step true exS0 exSvault (Reachable.base true 1 100) ?_
  exact Step.createFull true exS0 exSvault 1 2 10 0 0 1 (by decide)

/-! ### Claim C2 -/

/-- C2 (batch claim atomicity): for every `claim_all` call, if any item of
the batch fails validation against the pre-call state, the whole call fails
and the persisted state (hence every vault's `released_amount`) is unchanged;
a successful call returns the per-item claimed amounts in input order. -/
theorem C2_claim_all_atomicity (s : ContractState) (ids : List Nat) (amts : List Int) :
    ((∃ p ∈ ids.zip amts, badClaim s p.1 p.2) →
      (∃ e, claim_all s ids amts = .error e) ∧
        callState (claim_all s ids amts) s = s) ∧
    (∀ res s1, claim_all s ids amts = .ok (res, s1) → res = amts) := by
  constructor
  · intro hbad
    have herr : ∃ e, claim_all s ids amts = .error e := by
      by_cases hlen : ids.length ≠ amts.length
      · exact ⟨.LengthMismatch, by simp [claim_all, hlen]⟩
      · by_cases hz : ids.length = 0
        · exact ⟨.EmptyBatch, by simp [claim_all, hlen, hz]; omega⟩
        · obtain ⟨e, he⟩ := claimAllGo_bad hbad
          exact ⟨e, by simp [claim_all, hlen, hz, he]⟩
    refine ⟨herr, ?_⟩
    obtain ⟨e, he⟩ := herr
    rw [he]
    rfl
  · intro res s1 hok
    obtain ⟨hgo, hlen⟩ := claim_all_ok_go hok
    exact claimAllGo_res hlen hgo

/-- C2 witness: a two-item batch whose second vault id `999` is missing
fails as a whole, and the persisted state is the pre-call state. -/
theorem C2_witness :
    isOkB (claim_all exSvault [1, 999] [5, 5]) = false ∧
      callState (claim_all exSvault [1, 999] [5, 5]) exSvault = exSvault := by
  have hbad : badClaim exSvault 999 5 := by
    have hnone : lookupE 999 exSvault.vaults = none := by decide
    unfold badClaim
    rw [hnone]
    exact trivial
  obtain ⟨⟨e, he⟩, hcs⟩ :=
    (C2_claim_all_atomicity exSvault [1, 999] [5, 5]).1
      ⟨(999, 5), by decide, hbad⟩
  refine ⟨?_, hcs⟩
  rw [he]
  rfl

/-! ### Claim C3 -/

/-- The per-vault bound exactly as claim C3 states it:
`0 ≤ released_amount ≤ total_amount` for every stored vault. -/
def claimStatedBounds (s : ContractState) : Prop :=
  ∀ k v, lookupE k s.vaults = some v →
    0 ≤ v.released_amount ∧ v.released_amount ≤ v.total_amount

/-- C3 counterexample: vault creation does not validate the amount, so
`create_vault_full` with amount `-5` completes and stores a vault with
`released_amount = 0 > total_amount = -5`, violating the stated bound in a
reachable state. -/
theorem C3_cex : Reachable false exSneg ∧ ¬ claimStatedBounds exSneg := by
  constructor
  · refine Reachable.step false exS0 exSneg (Reachable.base false 1 100) ?_
    exact Step.createFull false exS0 exSneg 1 2 (-5) 0 0 1 (by decide)
  · intro hcb
    have hv : lookupE 1 exSneg.vaults =
        some { owner := 2, total_amount := -5, released_amount := 0,
               start_time := 0, end_time := 0, is_initialized := true } := by decide
    exact absurd (hcb 1 _ hv) (by decide)

/-- C3 (as amended): after every completed operation every stored vault
satisfies `0 ≤ released_amount ≤ max total_amount 0` (so `released ≤ total`
whenever `total ≥ 0`; vaults funded with a negative amount keep
`released = 0`), and no completed operation decreases any stored vault's
`released_amount`. -/
theorem C3_bounds_and_monotone (b : Bool) (s s1 : ContractState)
    (h : Reachable b s) :
    (∀ k v, lookupE k s.vaults = some v →
      0 ≤ v.released_amount ∧ v.released_amount ≤ max v.total_amount 0) ∧
    (Step b s s1 → ∀ k v, lookupE k s.vaults = some v →
      ∃ w, lookupE k s1.vaults = some w ∧ v.released_amount ≤ w.released_amount) :=
  ⟨reachable_bounds h, fun hstep => step_mono hstep (reachable_phantom h)⟩

/-- C3 witness: the bound instantiated at the single vault of the concrete
reachable state `exSvault`. -/
theorem C3_witness :
    0 ≤ (0 : Int) ∧ (0 : Int) ≤ max (10 : Int) 0 := by
  have hreach : Reachable false exSvault := by
    refine Reachable.step false exS0 exSvault (Reachable.base false 1 100) ?_
    exact Step.createFull false exS0 exSvault 1 2 10 0 0 1 (by decide)
  have hv : lookupE 1 exSvault.vaults =
      some { owner := 2, total_amount := 10, released_amount := 0,
             start_time := 0, end_time := 0, is_initialized := true } := by decide
  exact (C3_bounds_and_monotone false exSvault exSvault hreach).1 1 _ hv

/-! ### Claim C4 -/

/-- Restatement of claim C4's description of `claim_tokens`, following the
spec's words: `NotFound` when the vault is missing, `NotInitialized` when it
is uninitialized, `InvalidAmount` when `amount ≤ 0`, `InsufficientVaultBalance`
when `amount > total_amount − released_amount`, otherwise `released_amount`
grows by `amount`, the vault is persisted, and `amount` is returned. -/
def claimTokensSpec (s : ContractState) (vault_id : Nat) (amount : Int) :
    Except Err (Int × ContractState) :=
  match lookupE vault_id s.vaults with
  | none => .error .VaultNotFound
  | some v =>
    if v.is_initialized = false then .error .VaultNotInitialized
    else if amount ≤ 0 then .error .InvalidAmount
    else if amount > v.total_amount - v.released_amount then
      .error .InsufficientVaultBalance
    else
      let upd := { v with released_amount := v.released_amount + amount }
      .ok (amount, { s with vaults := setEntry vault_id upd s.vaults })

/-- C4: `claim_tokens` behaves exactly as the spec describes it, including
the order of the checks and the persisted update. -/
theorem C4_claim_tokens (s : ContractState) (vault_id : Nat) (amount : Int) :
    claim_tokens s vault_id amount = claimTokensSpec s vault_id amount := by
  unfold claim_tokens claimTokensSpec claimUpdState
  rfl

/-! ### Claim C5 -/

/-- C5 (access control): the five admin-gated operations succeed only when
the caller equals the stored admin and fail `Unauthorized` for any other
caller; `accept_ownership` succeeds only for the currently proposed admin,
fails `Unauthorized` for any other caller when a proposal exists, and fails
`NoProposal` when none does. -/
theorem C5_access_control (s : ContractState) (c o na : Nat) (a : Int)
    (st en : Nat) (bd : BatchCreateData) :
    (∀ vid s1, create_vault_full s c o a st en = .ok (vid, s1) →
      s.admin_address = some c) ∧
    (∀ vid s1, create_vault_lazy s c o a st en = .ok (vid, s1) →
      s.admin_address = some c) ∧
    (∀ ids s1, batch_create_vaults_lazy s c bd = .ok (ids, s1) →
      s.admin_address = some c) ∧
    (∀ ids s1, batch_create_vaults_full s c bd = .ok (ids, s1) →
      s.admin_address = some c) ∧
    (∀ s1, propose_new_admin s c na = .ok s1 → s.admin_address = some c) ∧
    (∀ x, s.admin_address = some x → x ≠ c →
      create_vault_full s c o a st en = .error .Unauthorized ∧
      create_vault_lazy s c o a st en = .error .Unauthorized ∧
      batch_create_vaults_lazy s c bd = .error .Unauthorized ∧
      batch_create_vaults_full s c bd = .error .Unauthorized ∧
      propose_new_admin s c na = .error .Unauthorized) ∧
    (∀ s1, accept_ownership s c = .ok s1 → s.proposed_admin = some c) ∧
    (∀ x, s.proposed_admin = some x → x ≠ c →
      accept_ownership s c = .error .Unauthorized) ∧
    (s.proposed_admin = none → accept_ownership s c = .error .NoProposal) := by
  refine ⟨?_, ?_, ?_, ?_, ?_, ?_, ?_, ?_, ?_⟩
  · intro vid s1 h
    exact (create_vault_full_ok h).1
  · intro vid s1 h
    exact (create_vault_lazy_ok h).1
  · intro ids s1 h
    exact (batch_lazy_ok h).1
  · intro ids s1 h
    exact (batch_full_ok h).1
  · intro s1 h
    exact (propose_ok h).1
  · intro x hx hne
    have hra := require_admin_other hx hne
    exact ⟨by simp [create_vault_full, hra], by simp [create_vault_lazy, hra],
      by simp [batch_create_vaults_lazy, hra], by simp [batch_create_vaults_full, hra],
      by simp [propose_new_admin, hra]⟩
  · intro s1 h
    exact (accept_ok h).1
  · intro x hx hne
    have hcp : c ≠ x := fun hh => hne hh.symm
    simp [accept_ownership, hx, hcp]
  · intro hx
    simp [accept_ownership, hx]

/-- C5 witness: with admin `1` and no proposal stored, a call by `2` to
`create_vault_full` fails `Unauthorized` and a call by `2` to
`accept_ownership` fails `NoProposal`. -/
theorem C5_witness :
    create_vault_full exS0 2 3 10 0 0 = .error .Unauthorized ∧
      accept_ownership exS0 2 = .error .NoProposal := by
  have hall := C5_access_control exS0 2 3 3 10 0 0
    { recipients := [], amounts := [], start_times := [], end_times := [] }
  refine ⟨?_, ?_⟩
  · exact (hall.2.2.2.2.2.1 1 (by decide) (by decide)).1
  · exact hall.2.2.2.2.2.2.2.2 (by decide)

/-! ### Claim C6 -/

theorem require_admin_err {s : ContractState} {c : Nat} {e : Err}
    (h : require_admin s c = .error e) : e = .AdminNotSet ∨ e = .Unauthorized := by
  unfold require_admin at h
  cases hadm : s.admin_address with
  | none =>
    rw [hadm] at h
    cases h
    exact Or.inl rfl
  | some x =>
    rw [hadm] at h
    simp only [] at h
    by_cases hc : c ≠ x
    · rw [if_pos hc] at h
      cases h
      exact Or.inr rfl
    · rw [if_neg hc] at h
      cases h

theorem batch_lazy_err {s : ContractState} {c : Nat} {bd : BatchCreateData}
    {e : Err} (h : batch_create_vaults_lazy s c bd = .error e) :
    e = .AdminNotSet ∨ e = .Unauthorized ∨ e = .InsufficientBalance ∨
      e = .IndexOutOfBounds := by
  unfold batch_create_vaults_lazy at h
  cases hra : require_admin s c with
  | error e0 =>
    rw [hra] at h
    cases h
    rcases require_admin_err hra with h1 | h1
    · exact Or.inl h1
    · exact Or.inr (Or.inl h1)
  | ok u =>
    rw [hra] at h
    simp only [] at h
    by_cases hbal : s.admin_balance.getD 0 < sumAmounts bd.amounts
    · rw [if_pos hbal] at h
      cases h
      exact Or.inr (Or.inr (Or.inl rfl))
    · rw [if_neg hbal] at h
      split at h
      · cases h
      · rename_i e2 hloop
        cases h
        exact Or.inr (Or.inr (Or.inr (batchLoop_err hloop)))

theorem batch_full_err {s : ContractState} {c : Nat} {bd : BatchCreateData}
    {e : Err} (h : batch_create_vaults_full s c bd = .error e) :
    e = .AdminNotSet ∨ e = .Unauthorized ∨ e = .InsufficientBalance ∨
      e = .IndexOutOfBounds := by
  unfold batch_create_vaults_full at h
  cases hra : require_admin s c with
  | error e0 =>
    rw [hra] at h
    cases h
    rcases require_admin_err hra with h1 | h1
    · exact Or.inl h1
    · exact Or.inr (Or.inl h1)
  | ok u =>
    rw [hra] at h
    simp only [] at h
    by_cases hbal : s.admin_balance.getD 0 < sumAmounts bd.amounts
    · rw [if_pos hbal] at h
      cases h
      exact Or.inr (Or.inr (Or.inl rfl))
    · rw [if_neg hbal] at h
      split at h
      · cases h
      · rename_i e2 hloop
        cases h
        exact Or.inr (Or.inr (Or.inr (batchLoop_err hloop)))

/-- C6 (as amended): the batch creators perform no length check at all.
They can never fail with `LengthMismatch`; when the amounts, start or end
vector is shorter than the recipients vector (and the call passes the admin
and aggregate-balance checks that precede the loop) they abort with an
out-of-bounds access instead; surplus entries of a longer vector are
accepted (see `C6_cex`). -/
theorem C6_no_length_check (s : ContractState) (c : Nat) (bd : BatchCreateData) :
    (∀ e, batch_create_vaults_lazy s c bd = .error e → e ≠ .LengthMismatch) ∧
    (∀ e, batch_create_vaults_full s c bd = .error e → e ≠ .LengthMismatch) ∧
    (s.admin_address = some c → sumAmounts bd.amounts ≤ s.admin_balance.getD 0 →
      (bd.amounts.length < bd.recipients.length ∨
        bd.start_times.length < bd.recipients.length ∨
        bd.end_times.length < bd.recipients.length) →
      batch_create_vaults_lazy s c bd = .error .IndexOutOfBounds ∧
        batch_create_vaults_full s c bd = .error .IndexOutOfBounds) := by
  refine ⟨?_, ?_, ?_⟩
  · intro e he
    rcases batch_lazy_err he with rfl | rfl | rfl | rfl <;> simp
  · intro e he
    rcases batch_full_err he with rfl | rfl | rfl | rfl <;> simp
  · intro hadm hbal hshort
    have hra := require_admin_self hadm
    have hloop1 : batchLoop false
        { s with admin_balance := some (s.admin_balance.getD 0 - sumAmounts bd.amounts) }
        (s.vault_count.getD 0) bd.recipients bd.amounts bd.start_times bd.end_times =
        .error .IndexOutOfBounds := batchLoop_oob hshort
    have hloop2 : batchLoop true
        { s with admin_balance := some (s.admin_balance.getD 0 - sumAmounts bd.amounts) }
        (s.vault_count.getD 0) bd.recipients bd.amounts bd.start_times bd.end_times =
        .error .IndexOutOfBounds := batchLoop_oob hshort
    constructor
    · simp [batch_create_vaults_lazy, hra, not_lt.mpr hbal, hloop1]
    · simp [batch_create_vaults_full, hra, not_lt.mpr hbal, hloop2]

/-- C6 counterexample: a batch whose four sequences differ in length (one
recipient, two amounts) does not fail `LengthMismatch` — it completes. -/
theorem C6_cex :
    isOkB (batch_create_vaults_lazy exS0 1 exBDlong) = true ∧
      exBDlong.recipients.length ≠ exBDlong.amounts.length := by decide

/-- C6 witness: with fewer amounts than recipients the lazy batch creator
fails with the out-of-bounds panic, which is not `LengthMismatch`. -/
theorem C6_witness :
    batch_create_vaults_lazy exS0 1 exBDshort = .error .IndexOutOfBounds ∧
      Err.IndexOutOfBounds ≠ Err.LengthMismatch := by
  have h3 := (C6_no_length_check exS0 1 exBDshort).2.2 (by decide) (by decide)
    (Or.inl (by decide))
  exact ⟨h3.1, (C6_no_length_check exS0 1 exBDshort).1 _ h3.1⟩

/-! ### Claim C7 -/

/-- C7 (as amended, restricted to batches whose amounts, start and end
vectors are at least as long as the recipients vector): an admin-authorized
batch creation whose aggregate amount exceeds `admin_balance` fails
`InsufficientBalance` with no state change; otherwise it debits the balance
once by the aggregate, creates one vault per recipient under consecutive
ids continuing from the stored counter, sets the counter past them, and
returns the ids index-aligned with the recipients. -/
theorem C7_batch_create (s : ContractState) (c : Nat) (bd : BatchCreateData)
    (hadm : s.admin_address = some c)
    (hA : bd.recipients.length ≤ bd.amounts.length)
    (hS : bd.recipients.length ≤ bd.start_times.length)
    (hE : bd.recipients.length ≤ bd.end_times.length) :
    (s.admin_balance.getD 0 < sumAmounts bd.amounts →
      batch_create_vaults_lazy s c bd = .error .InsufficientBalance ∧
      batch_create_vaults_full s c bd = .error .InsufficientBalance ∧
      callState (batch_create_vaults_lazy s c bd) s = s ∧
      callState (batch_create_vaults_full s c bd) s = s) ∧
    (sumAmounts bd.amounts ≤ s.admin_balance.getD 0 →
      ∃ s1 s2,
        batch_create_vaults_lazy s c bd =
          .ok ((List.range bd.recipients.length).map
            (fun i => s.vault_count.getD 0 + i + 1), s1) ∧
        batch_create_vaults_full s c bd =
          .ok ((List.range bd.recipients.length).map
            (fun i => s.vault_count.getD 0 + i + 1), s2) ∧
        s1.admin_balance = some (s.admin_balance.getD 0 - sumAmounts bd.amounts) ∧
        s2.admin_balance = some (s.admin_balance.getD 0 - sumAmounts bd.amounts) ∧
        s1.vault_count = some (s.vault_count.getD 0 + bd.recipients.length) ∧
        s2.vault_count = some (s.vault_count.getD 0 + bd.recipients.length) ∧
        (∀ i (hi : i < bd.recipients.length),
          lookupE (s.vault_count.getD 0 + i + 1) s1.vaults =
            some { owner := bd.recipients.get ⟨i, hi⟩,
                   total_amount := bd.amounts.get ⟨i, lt_of_lt_of_le hi hA⟩,
                   released_amount := 0,
                   start_time := bd.start_times.get ⟨i, lt_of_lt_of_le hi hS⟩,
                   end_time := bd.end_times.get ⟨i, lt_of_lt_of_le hi hE⟩,
                   is_initialized := false }) ∧
        (∀ i (hi : i < bd.recipients.length),
          lookupE (s.vault_count.getD 0 + i + 1) s2.vaults =
            some { owner := bd.recipients.get ⟨i, hi⟩,
                   total_amount := bd.amounts.get ⟨i, lt_of_lt_of_le hi hA⟩,
                   released_amount := 0,
                   start_time := bd.start_times.get ⟨i, lt_of_lt_of_le hi hS⟩,
                   end_time := bd.end_times.get ⟨i, lt_of_lt_of_le hi hE⟩,
                   is_initialized := true })) := by
  have hra := require_admin_self hadm
  constructor
  · intro hbal
    have h1 : batch_create_vaults_lazy s c bd = .error .InsufficientBalance := by
      simp [batch_create_vaults_lazy, hra, hbal]
    have h2 : batch_create_vaults_full s c bd = .error .InsufficientBalance := by
      simp [batch_create_vaults_full, hra, hbal]
    exact ⟨h1, h2, by rw [h1]; rfl, by rw [h2]; rfl⟩
  · intro hbal
    obtain ⟨t1, heq1, hlook1⟩ :=
      @batchLoop_ok_exists false bd.recipients bd.amounts bd.start_times bd.end_times
        { s with admin_balance := some (s.admin_balance.getD 0 - sumAmounts bd.amounts) }
        (s.vault_count.getD 0) hA hS hE
    obtain ⟨t2, heq2, hlook2⟩ :=
      @batchLoop_ok_exists true bd.recipients bd.amounts bd.start_times bd.end_times
        { s with admin_balance := some (s.admin_balance.getD 0 - sumAmounts bd.amounts) }
        (s.vault_count.getD 0) hA hS hE
    have hop1 : batch_create_vaults_lazy s c bd =
        .ok ((List.range bd.recipients.length).map
            (fun i => s.vault_count.getD 0 + i + 1),
          { t1 with vault_count := some (s.vault_count.getD 0 + bd.recipients.length) }) := by
      unfold batch_create_vaults_lazy
      rw [hra]
      simp only []
      rw [if_neg (not_lt.mpr hbal), heq1]
    have hop2 : batch_create_vaults_full s c bd =
        .ok ((List.range bd.recipients.length).map
            (fun i => s.vault_count.getD 0 + i + 1),
          { t2 with vault_count := some (s.vault_count.getD 0 + bd.recipients.length) }) := by
      unfold batch_create_vaults_full
      rw [hra]
      simp only []
      rw [if_neg (not_lt.mpr hbal), heq2]
    obtain ⟨-, hbal1, -⟩ := batchLoop_scalars heq1
    obtain ⟨-, hbal2, -⟩ := batchLoop_scalars heq2
    refine ⟨_, _, hop1, hop2, ?_, ?_, rfl, rfl, ?_, ?_⟩
    · exact hbal1
    · exact hbal2
    · intro i hi
      exact hlook1 i hi
    · intro i hi
      exact hlook2 i hi

/-- C7 counterexample: an admin-authorized batch with two recipients but a
single amount entry, whose aggregate (10) is within the admin balance (100):
the claim's success branch requires vault creation, but the call aborts with
an out-of-bounds access. -/
theorem C7_cex :
    batch_create_vaults_lazy exS0 1 exBDshort = .error .IndexOutOfBounds ∧
      sumAmounts exBDshort.amounts ≤ exS0.admin_balance.getD 0 ∧
      exS0.admin_address = some 1 := by decide

/-- C7 witness: the failure branch of the theorem at a concrete batch whose
aggregate exceeds the balance. -/
theorem C7_witness :
    batch_create_vaults_lazy exS0 1 exBDbig = .error .InsufficientBalance ∧
      callState (batch_create_vaults_lazy exS0 1 exBDbig) exS0 = exS0 := by
  have h := (C7_batch_create exS0 1 exBDbig (by decide) (by decide) (by decide)
    (by decide)).1 (by decide)
  exact ⟨h.1, h.2.2.1⟩

/-! ### Claim C8 -/

/-- The spec's scenario state: `initialize(admin, 1_000_000)` followed by
`create_vault_full(owner, 1000, 0, 1000)`. -/
def exS8 : ContractState := initializeOp emptyState 1 1000000

/-- The scenario state after the vault creation. -/
def exS8v : ContractState := callState (create_vault_full exS8 1 2 1000 0 1000) exS8

/-- C8 evaluated at the spec's own scenario: the vault creation completes
(id 1), yet `get_contract_state` returns `(0, 0, 999000)` instead of the
claimed `(1000, 0, 999000)`, and `check_invariant` returns `false` although
conservation does hold — the aggregation loop of the source reads the bare
`VAULT_DATA` slot, which is never written, and ignores its loop index, so
`total_locked` and `total_claimed` always come out `0`. -/
theorem C8_aggregation_defect :
    create_vault_full exS8 1 2 1000 0 1000 = .ok (1, exS8v) ∧
      get_contract_state exS8v = (0, 0, 999000) ∧
      get_contract_state exS8v ≠ (1000, 0, 999000) ∧
      check_invariant exS8v = false ∧
      sumLocked exS8v.vaults + sumReleased exS8v.vaults +
        exS8v.admin_balance.getD 0 = exS8v.initial_supply.getD 0 := by decide

/-! ### Claim C9 -/

/-- `exS0` after a materialization call on the unknown id `1` by caller `7`:
a placeholder vault owned by `7` is created at id `1` and indexed. -/
def exC9sA : ContractState := (initialize_vault_metadata exS0 7 1).2

/-- `exC9sA` after the admin lazily creates a vault for owner `7`: the
counter (still 0) allocates id `1`, overwriting the placeholder with an
uninitialized vault while id `1` already sits in owner `7`'s index. -/
def exC9sB : ContractState := callState (create_vault_lazy exC9sA 1 7 5 0 0) exC9sA

/-- `exC9sB` after the first of the two materialization calls of claim C9. -/
def exC9sC : ContractState := (initialize_vault_metadata exC9sB 3 1).2

/-- C9 counterexample: `exC9sB` is reachable and stores an uninitialized
vault at id `1`; calling `initialize_vault_metadata 1` twice transitions
once and then no-ops as claimed, but afterwards id `1` appears twice in
owner `7`'s index, not exactly once — it was already indexed by the earlier
placeholder materialization that the lazy creation overwrote. -/
theorem C9_cex :
    Reachable false exC9sB ∧
      lookupE 1 exC9sB.vaults =
        some { owner := 7, total_amount := 5, released_amount := 0,
               start_time := 0, end_time := 0, is_initialized := false } ∧
      (initialize_vault_metadata exC9sB 3 1).1 = true ∧
      initialize_vault_metadata exC9sC 3 1 = (false, exC9sC) ∧
      (uvGet exC9sC 7).count 1 = 2 := by
  refine ⟨?_, by decide, by decide, by decide, by decide⟩
  refine Reachable.step false exC9sA exC9sB ?_ ?_
  · exact Reachable.step false exS0 exC9sA (Reachable.base false 1 100)
      (Step.initMeta false exS0 7 1)
  · exact Step.createLazy false exC9sA exC9sB 1 7 5 0 0 1 (by decide)

/-- C9 (as amended): for every stored uninitialized vault, the first
materialization call transitions (sets the flag, appends the id once to the
owner's index, returns `true`) and an immediate second call is a no-op
returning `false`; hence the pair of calls appends the id to the owner's
index exactly once (so the id ends up appearing exactly once whenever it
was not already present). -/
theorem initMeta_noop {s : ContractState} {c vault_id : Nat} {v : Vault}
    (hv : lookupE vault_id s.vaults = some v) (hinit : v.is_initialized = true) :
    initialize_vault_metadata s c vault_id = (false, s) := by
  unfold initialize_vault_metadata
  rw [hv]
  simp [hinit]

theorem C9_materialize_idempotent (s : ContractState) (c c2 vault_id : Nat)
    (v : Vault) (hv : lookupE vault_id s.vaults = some v)
    (hinit : v.is_initialized = false) :
    (initialize_vault_metadata s c vault_id).1 = true ∧
    lookupE vault_id (initialize_vault_metadata s c vault_id).2.vaults =
      some ({ v with is_initialized := true }) ∧
    uvGet (initialize_vault_metadata s c vault_id).2 v.owner =
      uvGet s v.owner ++ [vault_id] ∧
    initialize_vault_metadata (initialize_vault_metadata s c vault_id).2 c2 vault_id =
      (false, (initialize_vault_metadata s c vault_id).2) ∧
    (uvGet (initialize_vault_metadata s c vault_id).2 v.owner).count vault_id =
      (uvGet s v.owner).count vault_id + 1 := by
  have hs1 : initialize_vault_metadata s c vault_id =
      (true,
        { s with
            vaults := setEntry vault_id ({ v with is_initialized := true }) s.vaults,
            user_vaults :=
              setEntry v.owner (uvGet s v.owner ++ [vault_id]) s.user_vaults }) := by
    unfold initialize_vault_metadata
    rw [hv]
    simp [hinit, uvGet]
  have hlook1 : lookupE vault_id (initialize_vault_metadata s c vault_id).2.vaults =
      some ({ v with is_initialized := true }) := by
    rw [hs1]
    exact lookupE_setEntry_self _ _ _
  have huv : uvGet (initialize_vault_metadata s c vault_id).2 v.owner =
      uvGet s v.owner ++ [vault_id] := by
    rw [hs1]
    unfold uvGet
    simp only []
    rw [lookupE_setEntry_self]
    rfl
  refine ⟨by rw [hs1], hlook1, huv, ?_, ?_⟩
  · exact initMeta_noop hlook1 rfl
  · rw [huv]
    simp

/-- C9 witness: the amended theorem applied to the lazily created vault of
`exSlazy` (owner `2`, uninitialized, id `1`). -/
theorem C9_witness :
    (initialize_vault_metadata exSlazy 4 1).1 = true ∧
      initialize_vault_metadata (initialize_vault_metadata exSlazy 4 1).2 5 1 =
        (false, (initialize_vault_metadata exSlazy 4 1).2) ∧
      (uvGet (initialize_vault_metadata exSlazy 4 1).2 2).count 1 =
        (uvGet exSlazy 2).count 1 + 1 := by
  obtain ⟨h1, -, -, h4, h5⟩ :=
    C9_materialize_idempotent exSlazy 4 5 1
      { owner := 2, total_amount := 10, released_amount := 0,
        start_time := 0, end_time := 0, is_initialized := false }
      (by decide) (by decide)
  exact ⟨h1, h4, h5⟩

/-! ### Claim C10 -/

/-- C10: materializing a vault id at which nothing is stored (any id,
including ids beyond `vault_count`) does not fail: it returns `true`,
persists a fresh vault at that id owned by the current contract address
with zero amounts and `is_initialized = true`, and appends the id to that
owner's index. -/
theorem C10_materialize_missing (s : ContractState) (caller vault_id : Nat)
    (hnone : lookupE vault_id s.vaults = none) :
    (initialize_vault_metadata s caller vault_id).1 = true ∧
    lookupE vault_id (initialize_vault_metadata s caller vault_id).2.vaults =
      some { owner := caller, total_amount := 0, released_amount := 0,
             start_time := 0, end_time := 0, is_initialized := true } ∧
    uvGet (initialize_vault_metadata s caller vault_id).2 caller =
      uvGet s caller ++ [vault_id] := by
  have hs1 : initialize_vault_metadata s caller vault_id =
      (true,
        { s with
            vaults := setEntry vault_id
              ({ owner := caller, total_amount := 0, released_amount := 0,
                 start_time := 0, end_time := 0, is_initialized := true }) s.vaults,
            user_vaults :=
              setEntry caller (uvGet s caller ++ [vault_id]) s.user_vaults }) := by
    unfold initialize_vault_metadata
    rw [hnone]
    simp [uvGet]
  refine ⟨by rw [hs1], ?_, ?_⟩
  · rw [hs1]
    exact lookupE_setEntry_self _ _ _
  · rw [hs1]
    unfold uvGet
    simp only []
    rw [lookupE_setEntry_self]
    rfl

/-- C10 witness: materializing the unknown id `5` (beyond the counter) in
`exS0` by caller `9`. -/
theorem C10_witness :
    (initialize_vault_metadata exS0 9 5).1 = true ∧
      lookupE 5 (initialize_vault_metadata exS0 9 5).2.vaults =
        some { owner := 9, total_amount := 0, released_amount := 0,
               start_time := 0, end_time := 0, is_initialized := true } ∧
      uvGet (initialize_vault_metadata exS0 9 5).2 9 = uvGet exS0 9 ++ [5] :=
  C10_materialize_missing exS0 9 5 (by decide)

example : (initializeOp emptyState 1 100).admin_balance = some 100 := by decide

example :
    isOkB (create_vault_full (initializeOp emptyState 1 100) 1 2 10 0 0) = true := by
  decide

example :
    (callState (create_vault_full (initializeOp emptyState 1 100) 1 2 10 0 0)
      emptyState).admin_balance = some 90 := by decide

example :
    (claim_tokens (callState (create_vault_full (initializeOp emptyState 1 100) 1 2 10 0 0)
      emptyState) 1 (-3)) = .error .InvalidAmount := by decide

example :
    isOkB (batch_create_vaults_lazy (initializeOp emptyState 1 100) 1
      { recipients := [2], amounts := [10, 20], start_times := [0], end_times := [0] })
      = true := by decide

example :
    get_contract_state (callState
      (create_vault_full (initializeOp emptyState 1 1000000) 1 2 1000 0 1000)
      emptyState) = (0, 0, 999000) := by decide
